import Mathlib

/-!
A verification development for the tinygrad `ShapeTracker`
(`src/tinygrad/shape/__init__.py`).

The ShapeTracker depends on the symbolic expression algebra of
`tinygrad.shape.symbolic` (`Variable`, `MulNode`, `NumNode`, ...), whose
source is not part of this repository snapshot; that algebra is modelled
here from the specification (spec.md, section 4.1 "Symbolic expression
algebra").  Everything else (`View`, `ZeroView`, `ShapeTracker` and its
movement operations) is translated directly from the Python source.

Machine integers are Python arbitrary-precision integers, so they are
modelled as `Int`.  Python `//` and `%` agree with Lean's `Int./` (`ediv`)
and `Int.%` (`emod`) for positive divisors, and the algebra only divides
by positive constants (division or modulo by `k ≤ 0` is a fatal
programming error per the spec, modelled as `Option.none`).
-/

/-- Modelled from the spec: the symbolic expression node `Expr`, a tagged
variant with integer constants, bounded free variables, scaling, integer
division and modulo by a constant, n-ary sums, n-ary conjunctions, and
comparisons producing 0/1. -/
inductive Expr where
  | num  (c : Int)
  | var  (name : String) (lo hi : Int)
  | mul  (a : Expr) (b : Int)
  | div  (a : Expr) (b : Int)
  | mod  (a : Expr) (b : Int)
  | sum  (xs : List Expr)
  | ands (xs : List Expr)
  | lt   (a : Expr) (b : Int)
  | ge   (a : Expr) (b : Int)

mutual

/-- Evaluation of a symbolic expression on a concrete assignment of its
free variables.  `And` is 1 iff all conjuncts are nonzero; `Lt`/`Ge`
produce 0/1. -/
def evalE (env : String → Int) : Expr → Int
  | .num c => c
  | .var n _ _ => env n
  | .mul a b => evalE env a * b
  | .div a b => evalE env a / b
  | .mod a b => evalE env a % b
  | .sum xs => evalL env xs
  | .ands xs => if allNZ env xs then 1 else 0
  | .lt a b => if evalE env a < b then 1 else 0
  | .ge a b => if b ≤ evalE env a then 1 else 0

/-- Sum of the evaluations of a list of expressions. -/
def evalL (env : String → Int) : List Expr → Int
  | [] => 0
  | x :: xs => evalE env x + evalL env xs

/-- `true` iff every expression in the list evaluates to a nonzero value. -/
def allNZ (env : String → Int) : List Expr → Bool
  | [] => true
  | x :: xs => (evalE env x != 0) && allNZ env xs

end

mutual

/-- Modelled from the spec: the derived lower interval bound `min` that
every node carries. -/
def emin : Expr → Int
  | .num c => c
  | .var _ lo _ => lo
  | .mul a b => if 0 ≤ b then emin a * b else emax a * b
  | .div a b => emin a / b
  | .mod _ _ => 0
  | .sum xs => eminS xs
  | .ands xs => eminA xs
  | .lt _ _ => 0
  | .ge _ _ => 0

/-- Modelled from the spec: the derived upper interval bound `max` that
every node carries. -/
def emax : Expr → Int
  | .num c => c
  | .var _ _ hi => hi
  | .mul a b => if 0 ≤ b then emax a * b else emin a * b
  | .div a b => emax a / b
  | .mod _ b => b - 1
  | .sum xs => emaxS xs
  | .ands xs => emaxA xs
  | .lt _ _ => 1
  | .ge _ _ => 1

/-- Sum of the lower bounds of a list of summands. -/
def eminS : List Expr → Int
  | [] => 0
  | x :: xs => emin x + eminS xs

/-- Sum of the upper bounds of a list of summands. -/
def emaxS : List Expr → Int
  | [] => 0
  | x :: xs => emax x + emaxS xs

/-- Lower bound of a conjunction: minimum of the conjuncts' lower bounds
(1 for the empty conjunction). -/
def eminA : List Expr → Int
  | [] => 1
  | x :: xs => min (emin x) (eminA xs)

/-- Upper bound of a conjunction: maximum of the conjuncts' upper bounds
(1 for the empty conjunction). -/
def emaxA : List Expr → Int
  | [] => 1
  | x :: xs => max (emax x) (emaxA xs)

end

mutual

/-- The free variables (with their declared bounds) occurring in an
expression. -/
def varsOf : Expr → List (String × Int × Int)
  | .num _ => []
  | .var n lo hi => [(n, lo, hi)]
  | .mul a _ => varsOf a
  | .div a _ => varsOf a
  | .mod a _ => varsOf a
  | .sum xs => varsOfL xs
  | .ands xs => varsOfL xs
  | .lt a _ => varsOf a
  | .ge a _ => varsOf a

/-- Free variables of a list of expressions. -/
def varsOfL : List Expr → List (String × Int × Int)
  | [] => []
  | x :: xs => varsOf x ++ varsOfL xs

end

mutual

/-- Structural well-formedness of an expression: division and modulo only
by positive constants, and every conjunct of an `And` is 0/1-bounded.
All expressions built by the smart constructors below are well formed. -/
def WFb : Expr → Bool
  | .num _ => true
  | .var _ _ _ => true
  | .mul a _ => WFb a
  | .div a b => WFb a && decide (0 < b)
  | .mod a b => WFb a && decide (0 < b)
  | .sum xs => WFL xs
  | .ands xs => WFA xs
  | .lt a _ => WFb a
  | .ge a _ => WFb a

/-- All members well formed. -/
def WFL : List Expr → Bool
  | [] => true
  | x :: xs => WFb x && WFL xs

/-- All members well formed and 0/1-bounded (conjuncts of an `And`). -/
def WFA : List Expr → Bool
  | [] => true
  | x :: xs => WFb x && decide (0 ≤ emin x) && decide (emax x ≤ 1) && WFA xs

end

/-- An assignment is in bounds for an expression when every free variable
is assigned a value within its declared inclusive bounds. -/
def BEnv (env : String → Int) (e : Expr) : Prop :=
  ∀ p ∈ varsOf e, p.2.1 ≤ env p.1 ∧ env p.1 ≤ p.2.2

/-- In-bounds assignment for every member of a list of expressions. -/
def BEnvL (env : String → Int) (xs : List Expr) : Prop :=
  ∀ p ∈ varsOfL xs, p.2.1 ≤ env p.1 ∧ env p.1 ≤ p.2.2

/-- Modelled from the spec: `var(name, lo, hi)` returns a `Var` if
`lo < hi`, else the constant `Num(lo)`. -/
def varc (name : String) (lo hi : Int) : Expr :=
  if lo < hi then .var name lo hi else .num lo

/-- Summands of `xs` after flattening nested `Sum`s one level. -/
def sumFlat (xs : List Expr) : List Expr :=
  xs.flatMap fun x => match x with | .sum ys => ys | y => [y]

/-- The folded integer constant of a list of summands. -/
def sumConst : List Expr → Int
  | [] => 0
  | .num c :: xs => c + sumConst xs
  | _ :: xs => sumConst xs

/-- The non-constant summands of a list of summands. -/
def sumTerms : List Expr → List Expr
  | [] => []
  | .num _ :: xs => sumTerms xs
  | x :: xs => x :: sumTerms xs

/-- Modelled from the spec: `sum(xs)` flattens nested Sums, folds
constants, drops zeros, returns `Num(0)` on the empty list and the sole
child when it is a singleton with no constant. -/
def sumc (xs : List Expr) : Expr :=
  let fl := sumFlat xs
  let c := sumConst fl
  let ts := sumTerms fl
  if ts.isEmpty then .num c
  else if c = 0 then match ts with | [t] => t | _ => .sum ts
  else .sum (ts ++ [.num c])

mutual

/-- Modelled from the spec: `mul(e, k)`; `k = 0` gives `Num(0)`, `k = 1`
gives `e`, constants fold, `Sum`s distribute (each summand scaled) and
`Mul(Mul(x, a), b)` composes to `Mul(x, a*b)`. -/
def mulc (e : Expr) (k : Int) : Expr :=
  if k = 0 then .num 0
  else if k = 1 then e
  else match e with
    | .num c => .num (c * k)
    | .sum xs => sumc (mulcL xs k)
    | .mul a b => mulc a (b * k)
    | e' => .mul e' k

/-- Scale every member of a list of summands. -/
def mulcL (xs : List Expr) (k : Int) : List Expr :=
  match xs with
  | [] => []
  | x :: rest => mulc x k :: mulcL rest k

end

/-- `true` iff every summand is a multiple of `k` (a constant divisible by
`k`, or a `Mul` whose coefficient is divisible by `k`). -/
def sumDivisible (k : Int) : List Expr → Bool
  | [] => true
  | .num c :: xs => decide (c % k = 0) && sumDivisible k xs
  | .mul _ b :: xs => decide (b % k = 0) && sumDivisible k xs
  | _ :: _ => false

/-- Divide every summand of an all-multiples-of-`k` sum by `k`. -/
def sumDivide (k : Int) : List Expr → List Expr
  | [] => []
  | .num c :: xs => .num (c / k) :: sumDivide k xs
  | .mul a b :: xs => mulc a (b / k) :: sumDivide k xs
  | x :: xs => x :: sumDivide k xs

/-- Modelled from the spec: `div(e, k)`.  Division by `k ≤ 0` is a fatal
programming error (`none`).  Division by 1 is the identity (the spec's
canonical form folds trivial constants; section 4.6 relies on it).  If the
bounds prove `0 ≤ e < k` the quotient is 0; if every summand of a `Sum`
is a multiple of `k`, `k` is factored out; otherwise the unsimplified
node is returned with bounds `[min/k, max/k]`. -/
def divc (e : Expr) (k : Int) : Option Expr :=
  if k ≤ 0 then none
  else if k = 1 then some e
  else if 0 ≤ emin e ∧ emax e < k then some (.num 0)
  else match e with
    | .sum xs => if sumDivisible k xs then some (sumc (sumDivide k xs)) else some (.div (.sum xs) k)
    | e' => some (.div e' k)

/-- Modelled from the spec: `mod(e, k)`.  Modulo by `k ≤ 0` is a fatal
programming error (`none`); modulo by 1 is 0.  If the bounds prove
`0 ≤ e < k` the node is `e` itself; an all-multiples-of-`k` sum reduces
to 0; `mod(mod(e, k2), k1)` with `k1 ≤ k2` and `k2 % k1 = 0` reduces to
`mod(e, k1)`; otherwise the unsimplified node with bounds `[0, k-1]`. -/
def modc (e : Expr) (k : Int) : Option Expr :=
  if k ≤ 0 then none
  else if k = 1 then some (.num 0)
  else if 0 ≤ emin e ∧ emax e < k then some e
  else match e with
    | .sum xs => if sumDivisible k xs then some (.num 0) else some (.mod (.sum xs) k)
    | .mod e2 k2 => if k ≤ k2 ∧ k2 % k = 0 then modc e2 k else some (.mod (.mod e2 k2) k)
    | e' => some (.mod e' k)

/-- Modelled from the spec: `ge(e, b)` returns `Num(1)` or `Num(0)` when
the bounds prove the comparison, else the `Ge` node. -/
def gec (e : Expr) (b : Int) : Expr :=
  if b ≤ emin e then .num 1 else if emax e < b then .num 0 else .ge e b

/-- Modelled from the spec: `lt(e, b)` returns `Num(1)` or `Num(0)` when
the bounds prove the comparison, else the `Lt` node. -/
def ltc (e : Expr) (b : Int) : Expr :=
  if emax e < b then .num 1 else if b ≤ emin e then .num 0 else .lt e b

/-- Conjuncts after flattening nested `And`s one level. -/
def andFlat (xs : List Expr) : List Expr :=
  xs.flatMap fun x => match x with | .ands ys => ys | y => [y]

/-- Drop the conjuncts that are the constant `Num(1)`. -/
def dropOnes : List Expr → List Expr
  | [] => []
  | .num c :: xs => if c = 1 then dropOnes xs else .num c :: dropOnes xs
  | x :: xs => x :: dropOnes xs

/-- `true` iff some conjunct is the constant `Num(0)`. -/
def hasZero : List Expr → Bool
  | [] => false
  | .num c :: xs => decide (c = 0) || hasZero xs
  | _ :: xs => hasZero xs

/-- Modelled from the spec: `ands(xs)` flattens, drops `Num(1)`, returns
`Num(0)` if any conjunct is `Num(0)`, `Num(1)` on the empty list, and
unwraps a singleton. -/
def andsc (xs : List Expr) : Expr :=
  let fl := dropOnes (andFlat xs)
  if hasZero fl then .num 0
  else match fl with
    | [] => .num 1
    | [x] => x
    | _ => .ands fl

/-! ### View, ZeroView and ShapeTracker (translated from
`src/tinygrad/shape/__init__.py`) -/

/-- `tinygrad.helpers.prod`: product of a list of integers. -/
def iprod (xs : List Int) : Int := xs.prod

/-- The merging loop of `to_shape_strides`: `cur` is the last merged pair
(`ret[-1]` in the source) and the list holds the remaining
(shape, stride) pairs. -/
def tssGo (cur : Int × Int) : List (Int × Int) → List (Int × Int)
  | [] => [cur]
  | (sh, st) :: rest =>
    if (st ≠ 0 ∧ cur.2 = sh * st) ∨ cur.1 = 1 ∨ (st = 0 ∧ cur.2 = 0) then
      tssGo (cur.1 * sh, st) rest
    else
      cur :: tssGo (sh, st) rest

/-- `to_shape_strides(shape, strides)`: coalesce adjacent dimensions whose
strides compose arithmetically. -/
def to_shape_strides (shape strides : List Int) : List (Int × Int) :=
  match shape.zip strides with
  | [] => []
  | p :: rest => tssGo p rest

/-- `strides_for_shape(shape)`: row-major strides (`(1,)` for the empty
shape, as in the source). -/
def strides_for_shape : List Int → List Int
  | [] => [1]
  | [_] => [1]
  | _ :: rest => iprod rest :: strides_for_shape rest

/-- The stride normalization performed by `View.__init__`:
`tuple(stride if shp != 1 else 0 for stride, shp in zip(strides, shape))`. -/
def normStrides (shape strides : List Int) : List Int :=
  (strides.zip shape).map fun p => if p.2 = 1 then 0 else p.1

/-- A `View`: shape, per-dimension strides (normalized: stride 0 where the
shape is 1) and a scalar offset.  `shape_strides` and `contiguous` are
derived data, kept as functions. -/
structure View where
  shape : List Int
  strides : List Int
  offset : Int

/-- `View(shape, strides, offset)` — the constructor normalizes the
strides. -/
def View.make (shape strides : List Int) (offset : Int) : View :=
  ⟨shape, normStrides shape strides, offset⟩

/-- `self.shape_strides` of a view. -/
def View.shape_strides (v : View) : List (Int × Int) :=
  to_shape_strides v.shape v.strides

/-- The term-building loop of `View.expr_node`, over the reversed
`shape_strides` list with the running accumulator `acc`; terms for
dimensions with `d == 1` or `s == 0` are skipped, `acc` always grows. -/
def vLoop (idx : Expr) : List (Int × Int) → Int → Option (List Expr)
  | [], _ => some []
  | (d, s) :: rest, acc =>
    if d ≠ 1 ∧ s ≠ 0 then
      match divc idx acc with
      | none => none
      | some q =>
        match modc q d with
        | none => none
        | some m =>
          match vLoop idx rest (acc * d) with
          | none => none
          | some ts => some (mulc m s :: ts)
    else vLoop idx rest (acc * d)

/-- `View.expr_node(idx)` with an explicit linear-index expression:
`Variable.sum([Num(offset)] + [((idx//acc) % d) * s for ...])`. -/
def View.expr_node (v : View) (idx : Expr) : Option Expr :=
  match vLoop idx v.shape_strides.reverse 1 with
  | none => none
  | some ts => some (sumc (.num v.offset :: ts))

/-- The default linear index created by `View.expr_node` when no index is
passed: `Variable('idx', 0, prod(self.shape))`. -/
def View.idxDefault (v : View) : Expr := varc "idx" 0 (iprod v.shape)

/-- `View.expr_node()` — the no-argument form. -/
def View.expr_node_d (v : View) : Option Expr := v.expr_node v.idxDefault

/-- `View.expr_idxs(idxs, offset)`: per-dimension index variables, one per
shape dimension, each bounded `[0, sh-1]`; dimensions with `sh == 1` or
`st == 0` are skipped. -/
def View.expr_idxs (v : View) (idxs : List String) (off : Int) : Expr :=
  sumc (.num (v.offset + off) ::
    ((idxs.zip (v.shape.zip v.strides)).filterMap fun p =>
      if p.2.1 ≠ 1 ∧ p.2.2 ≠ 0 then some (mulc (varc p.1 0 (p.2.1 - 1)) p.2.2) else none))

/-- A `ZeroView`: the shape before padding and the per-dimension
`(lo, hi)` windows. -/
structure ZeroView where
  old_shape : List Int
  arg : List (Int × Int)

/-- `self.shape` of a ZeroView: `tuple(y - x for x, y in arg)`. -/
def ZeroView.shape (z : ZeroView) : List Int := z.arg.map fun p => p.2 - p.1

/-- The check-building loop of `ZeroView.expr_node` over the reversed
`zip(old_shape, shape, arg)` list.  `base = ((idx//acc) % ns) + x` is
computed for every dimension (Python evaluates it eagerly), the checks
`base >= 0` (when `x < 0`) and `base < s` (when `y > s`) are appended. -/
def zvLoop (idx : Expr) : List (Int × (Int × (Int × Int))) → Int → Option (List Expr)
  | [], _ => some []
  | (s, ns, x, y) :: rest, acc =>
    match divc idx acc with
    | none => none
    | some q =>
      match modc q ns with
      | none => none
      | some m =>
        let base := sumc [m, .num x]
        match zvLoop idx rest (acc * ns) with
        | none => none
        | some cs =>
          some (((if x < 0 then [gec base 0] else []) ++
                 (if s < y then [ltc base s] else [])) ++ cs)

/-- `ZeroView.expr_node(idx, valid)`: conjunction of the prior validity
(if any) with the per-dimension bounds checks. -/
def ZeroView.expr_node (z : ZeroView) (idx : Expr) (valid : Option Expr) : Option Expr :=
  match zvLoop idx (z.old_shape.zip (z.shape.zip z.arg)).reverse 1 with
  | none => none
  | some cs =>
    some (andsc ((match valid with | some v0 => [v0] | none => []) ++ cs))

/-- The default linear index created by `ZeroView.expr_node` when no index
is passed: `Variable('idx', 0, prod([y-x for x,y in arg]))`. -/
def ZeroView.idxDefault (z : ZeroView) : Expr := varc "idx" 0 (iprod z.shape)

/-- `ZeroView.expr_node()` — the no-argument form (`valid=None`). -/
def ZeroView.expr_node_d (z : ZeroView) : Option Expr := z.expr_node z.idxDefault none

/-- A stack entry of a ShapeTracker: a `View` or a `ZeroView`
(`ViewTypes` in the source). -/
inductive VT where
  | view (v : View)
  | zero (z : ZeroView)

/-- `shape` of a stack entry. -/
def VT.shape : VT → List Int
  | .view v => v.shape
  | .zero z => z.shape

/-- `strides` of a stack entry (a ZeroView fakes row-major strides). -/
def VT.strides : VT → List Int
  | .view v => v.strides
  | .zero z => strides_for_shape z.shape

/-- `offset` of a stack entry (a ZeroView fakes offset 0). -/
def VT.offset : VT → Int
  | .view _v => _v.offset
  | .zero _ => 0

/-- The ShapeTracker: a non-empty stack of views. -/
structure ShapeTracker where
  views : List VT

/-- `view_from_shape(shape)`: the identity view of a shape. -/
def view_from_shape (shape : List Int) : View :=
  View.make shape (strides_for_shape shape) 0

/-- `ShapeTracker(shape)`: a fresh tracker with a single identity view. -/
def ShapeTracker.ofShape (shape : List Int) : ShapeTracker :=
  ⟨[.view (view_from_shape shape)]⟩

/-- `self.views[-1]` (the stacks handled here are always non-empty; the
default is never reached on them). -/
def ShapeTracker.top (st : ShapeTracker) : VT :=
  st.views.getLastD (.view ⟨[], [], 0⟩)

/-- The `shape` property. -/
def ShapeTracker.shape (st : ShapeTracker) : List Int := st.top.shape

/-- The `strides` property. -/
def ShapeTracker.strides (st : ShapeTracker) : List Int := st.top.strides

/-- The `offset` property. -/
def ShapeTracker.offset (st : ShapeTracker) : Int := st.top.offset

/-- `needs_valid()`: true iff a ZeroView appears in the stack. -/
def ShapeTracker.needs_valid (st : ShapeTracker) : Bool :=
  st.views.any fun v => match v with | .zero _ => true | .view _ => false

/-- The walk of `_expr_idx` over `views[0:-1][::-1]`: a View transforms
the index, a ZeroView only extends the validity predicate. -/
def walkList : List VT → Expr × Expr → Option (Expr × Expr)
  | [], p => some p
  | .view w :: rest, (idx, valid) =>
    match w.expr_node idx with
    | none => none
    | some e => walkList rest (e, valid)
  | .zero z :: rest, (idx, valid) =>
    match z.expr_node idx (some valid) with
    | none => none
    | some v2 => walkList rest (idx, v2)

/-- `ShapeTracker._expr_idx(idx)`: fold the earlier views over the top
expression, starting from `valid = Num(1)`. -/
def ShapeTracker._expr_idx (st : ShapeTracker) (idx : Expr) : Option (Expr × Expr) :=
  walkList st.views.dropLast.reverse (idx, .num 1)

/-- The default per-dimension index names `idx0, idx1, ...` of
`ShapeTracker.expr_idxs`. -/
def defaultIdxs (n : Nat) : List String :=
  (List.range n).map fun i => "idx" ++ toString i

/-- `ShapeTracker.expr_idxs(offset, idxs)`; `ZeroView.expr_idxs` raises
`NotImplementedError`, modelled as `none`. -/
def ShapeTracker.expr_idxs (st : ShapeTracker) (idxs : List String) (off : Int) :
    Option (Expr × Expr) :=
  match st.top with
  | .zero _ => none
  | .view w => st._expr_idx (w.expr_idxs idxs off)

/-- `ShapeTracker.expr_idxs()` with the default index names and offset 0. -/
def ShapeTracker.expr_idxs_d (st : ShapeTracker) : Option (Expr × Expr) :=
  st.expr_idxs (defaultIdxs st.shape.length) 0

/-- `ShapeTracker.expr_node(idx)`: a single linear index bounded
`[0, prod(shape)-1]` fed through the top entry's `expr_node`. -/
def ShapeTracker.expr_node (st : ShapeTracker) (name : String) : Option (Expr × Expr) :=
  match st.top with
  | .view w =>
    match w.expr_node (varc name 0 (iprod st.shape - 1)) with
    | none => none
    | some e => st._expr_idx e
  | .zero z =>
    match z.expr_node (varc name 0 (iprod st.shape - 1)) none with
    | none => none
    | some e => st._expr_idx e

/-- The linear-index variable created by `ShapeTracker.expr_node`. -/
def ShapeTracker.exprNodeIdx (st : ShapeTracker) (name : String) : Expr :=
  varc name 0 (iprod st.shape - 1)

/-! ### Movement operations -/

/-- `ShapeTracker.shrink(arg)`.  The assertion `len(arg) == len(self.shape)`
is a fatal error on violation (`none`); the ZeroView check
`zeroview.expr_node().min == 0` decides whether the ZeroView and a fresh
identity view are appended (the generalized, padded case). -/
def ShapeTracker.shrink (st : ShapeTracker) (arg : List (Int × Int)) :
    Option ShapeTracker :=
  if arg.length = st.shape.length then
    let offset : Int := ((arg.zip st.strides).map fun p => p.2 * p.1.1).sum
    let zv : ZeroView := ⟨st.shape, arg⟩
    let newShape : List Int := arg.map fun p => p.2 - p.1
    let newTop : View := View.make newShape st.strides (st.offset + offset)
    match zv.expr_node_d with
    | none => none
    | some e =>
      if emin e = 0 then
        some ⟨st.views.dropLast ++
          [.view newTop, .zero zv, .view (view_from_shape newShape)]⟩
      else
        some ⟨st.views.dropLast ++ [.view newTop]⟩
  else none

/-- `ShapeTracker.pad(arg)`: asserts non-negative pad amounts and matching
rank, then calls the generalized shrink with
`((-b, s+e) for s, (b, e) in zip(shape, arg))`. -/
def ShapeTracker.pad (st : ShapeTracker) (arg : List (Int × Int)) :
    Option ShapeTracker :=
  if arg.length = st.shape.length ∧ ∀ p ∈ arg, 0 ≤ p.1 ∧ 0 ≤ p.2 then
    st.shrink ((st.shape.zip arg).map fun p => (-p.2.1, p.1 + p.2.2))
  else none

/-- `ShapeTracker.expand(new_shape)`: every zipped pair must satisfy
`x == y or x == 1` (fatal otherwise); strides are kept where the dimension
agrees and forced to 0 where it was 1.  Python's `zip` truncates, so a
shorter `new_shape` silently drops trailing dimensions. -/
def ShapeTracker.expand (st : ShapeTracker) (new_shape : List Int) :
    Option ShapeTracker :=
  if ∀ p ∈ st.shape.zip new_shape, p.1 = p.2 ∨ p.1 = 1 then
    let strides : List Int :=
      (st.strides.zip (st.shape.zip new_shape)).map fun p =>
        if p.2.1 = p.2.2 then p.1 else 0
    some ⟨st.views.dropLast ++ [.view (View.make new_shape strides st.offset)]⟩
  else none

/-- `ShapeTracker.stride(mul)`: new shape `ceil(s/|m|)`, strides `z*m`,
offset advanced to the high end of every reversed dimension.  A zero
multiplier is a fatal division by zero in Python (`none`). -/
def ShapeTracker.stride (st : ShapeTracker) (mul : List Int) :
    Option ShapeTracker :=
  if ∀ p ∈ st.shape.zip mul, p.2 ≠ 0 then
    let strides : List Int := (st.strides.zip mul).map fun p => p.1 * p.2
    let new_shape : List Int :=
      (st.shape.zip mul).map fun p => (p.1 + (|p.2| - 1)) / |p.2|
    let offset : Int :=
      ((st.shape.zip (st.strides.zip mul)).filterMap fun p =>
        if p.2.2 < 0 then some ((p.1 - 1) * p.2.1) else none).sum
    some ⟨st.views.dropLast ++
      [.view (View.make new_shape strides (st.offset + offset))]⟩
  else none

/-- `ShapeTracker.flip(axis)`: `stride` with `-1` on the flipped axes and
`1` elsewhere. -/
def ShapeTracker.flip (st : ShapeTracker) (axis : List Nat) :
    Option ShapeTracker :=
  st.stride ((List.range st.shape.length).map fun i => if i ∈ axis then -1 else 1)

/-- The per-dimension classification of `simplify`: `NumNode` with `b == 0`
gives stride 0, a bare `Variable` gives stride 1, `MulNode(Variable, b)`
gives stride `b`; anything else aborts. -/
def classify : Expr → Option Int
  | .num b => if b = 0 then some 0 else none
  | .var _ _ _ => some 1
  | .mul (.var _ _ _) b => some b
  | _ => none

/-- Probe every dimension of the top view through the second view's
`expr_node`.  Outer `none` is a fatal error inside `expr_node`; inner
`none` means some dimension failed to classify (the `break` in the
source, which stops probing). -/
def probeAll (v2 : View) : List (Int × Int) → Option (Option (List Int))
  | [] => some (some [])
  | (s, st) :: rest =>
    match v2.expr_node (mulc (varc "idx" 0 (s - 1)) st) with
    | none => none
    | some e =>
      match classify e with
      | none => some none
      | some k =>
        match probeAll v2 rest with
        | none => none
        | some none => some none
        | some (some l) => some (some (k :: l))

/-- `ShapeTracker.simplify()` on the view list: while the stack has at
least two entries, the second-from-top is a `View` and the top has offset
0, probe all top dimensions; if every one classifies, replace the top two
entries by a single `View(top.shape, new_strides)` and recurse. -/
def simplifyGo (vs : List VT) : Option (List VT) :=
  if h2 : 2 ≤ vs.length then
    match vs.getLast?, vs.dropLast.getLast? with
    | some top, some (.view v2) =>
      if top.offset = 0 then
        match probeAll v2 (top.shape.zip top.strides) with
        | none => none
        | some none => some vs
        | some (some ks) =>
          if ks.length = top.strides.length then
            simplifyGo (vs.dropLast.dropLast ++ [.view (View.make top.shape ks 0)])
          else some vs
      else some vs
    | _, _ => some vs
  else some vs
termination_by vs.length
decreasing_by
  simp only [List.length_append, List.length_dropLast, List.length_cons,
    List.length_nil]
  omega

/-- `ShapeTracker.simplify()`. -/
def ShapeTracker.simplify (st : ShapeTracker) : Option ShapeTracker :=
  match simplifyGo st.views with
  | none => none
  | some vs => some ⟨vs⟩

/-- Fuel-indexed variant of `simplifyGo`, used to state that the
recursion depth is bounded by the length of the view list. -/
def simplifyGoF : Nat → List VT → Option (List VT)
  | 0, vs => some vs
  | fuel + 1, vs =>
    if 2 ≤ vs.length then
      match vs.getLast?, vs.dropLast.getLast? with
      | some top, some (.view v2) =>
        if top.offset = 0 then
          match probeAll v2 (top.shape.zip top.strides) with
          | none => none
          | some none => some vs
          | some (some ks) =>
            if ks.length = top.strides.length then
              simplifyGoF fuel (vs.dropLast.dropLast ++ [.view (View.make top.shape ks 0)])
            else some vs
        else some vs
      | _, _ => some vs
    else some vs

/-- `ShapeTracker.simplify()` with an explicit recursion-depth budget. -/
def ShapeTracker.simplifyFuel (fuel : Nat) (st : ShapeTracker) : Option ShapeTracker :=
  match simplifyGoF fuel st.views with
  | none => none
  | some vs => some ⟨vs⟩

/-! ### The naive multi-view walk (the specification side of claim C1) -/

/-- The numeric mirror of the `View.expr_node` loop: the contribution of
the merged dimensions to the buffer offset for a concrete linear index. -/
def numLoop (n : Int) : List (Int × Int) → Int → Int
  | [], _ => 0
  | (d, s) :: rest, acc =>
    (if d ≠ 1 ∧ s ≠ 0 then ((n / acc) % d) * s else 0) + numLoop n rest (acc * d)

/-- The affine map of a single `View` on a concrete linear index — the
`expr_node` map evaluated numerically. -/
def View.indexOf (v : View) (n : Int) : Int :=
  v.offset + numLoop n v.shape_strides.reverse 1

/-- One step of the naive walk: a View maps the linear index, a ZeroView
leaves it unchanged. -/
def VT.walkVal : VT → Int → Int
  | .view w, n => w.indexOf n
  | .zero _, n => n

/-- The naive multi-view walk of spec section 4.5 / claim C1: apply the
top view's affine map `offset + Σ idx_i * strides[i]` to the concrete
indices, then feed the value as a linear index through each earlier
view from second-to-top down to the first. -/
def naive_walk (st : ShapeTracker) (vals : List Int) : Int :=
  st.views.dropLast.reverse.foldl (fun n v => v.walkVal n)
    (st.top.offset + ((vals.zip st.top.strides).map fun p => p.1 * p.2).sum)

/-- A view is positive-dimensional when every shape entry is at least 1,
and carries one stride per dimension. -/
def View.ok (v : View) : Prop :=
  (∀ d ∈ v.shape, 1 ≤ d) ∧ v.strides.length = v.shape.length

/-- Stack-entry well-formedness: positive dimensions everywhere (for a
ZeroView, every window is non-empty). -/
def VT.ok : VT → Prop
  | .view w => w.ok
  | .zero z => ∀ p ∈ z.arg, p.1 < p.2

/-- Stack well-formedness. -/
def StackOK (st : ShapeTracker) : Prop := ∀ v ∈ st.views, v.ok

/-- A view whose strides are fixed by the constructor normalization
(every `View` built by the source is of this form). -/
def View.norm (v : View) : Prop := v.strides = normStrides v.shape v.strides

instance (v : View) : Decidable v.ok :=
  inferInstanceAs (Decidable ((∀ d ∈ v.shape, 1 ≤ d) ∧ v.strides.length = v.shape.length))

instance : ∀ v : VT, Decidable v.ok
  | .view w => inferInstanceAs (Decidable w.ok)
  | .zero z => inferInstanceAs (Decidable (∀ p ∈ z.arg, p.1 < p.2))

instance (st : ShapeTracker) : Decidable (StackOK st) :=
  inferInstanceAs (Decidable (∀ v ∈ st.views, v.ok))

instance (v : View) : Decidable v.norm :=
  inferInstanceAs (Decidable (v.strides = normStrides v.shape v.strides))

/-! ### Soundness of the interval bounds -/

theorem WFL_mem {xs : List Expr} (h : WFL xs = true) : ∀ x ∈ xs, WFb x = true := by
  induction xs with
  | nil => intro x hx; cases hx
  | cons y ys ih =>
    intro x hx
    simp only [WFL, Bool.and_eq_true] at h
    cases hx with
    | head => exact h.1
    | tail _ hmem => exact ih h.2 x hmem

theorem WFA_mem {xs : List Expr} (h : WFA xs = true) :
    ∀ x ∈ xs, WFb x = true ∧ 0 ≤ emin x ∧ emax x ≤ 1 := by
  induction xs with
  | nil => intro x hx; cases hx
  | cons y ys ih =>
    intro x hx
    simp only [WFA, Bool.and_eq_true, decide_eq_true_eq] at h
    cases hx with
    | head => exact ⟨h.1.1.1, h.1.1.2, h.1.2⟩
    | tail _ hmem => exact ih h.2 x hmem

theorem varsOf_mem_sublist {xs : List Expr} {x : Expr} (hx : x ∈ xs) :
    ∀ p ∈ varsOf x, p ∈ varsOfL xs := by
  induction xs with
  | nil => cases hx
  | cons y ys ih =>
    intro p hp
    cases hx with
    | head => exact by simp only [varsOfL, List.mem_append]; exact Or.inl hp
    | tail _ hmem => simp only [varsOfL, List.mem_append]; exact Or.inr (ih hmem p hp)

theorem BEnvL_mem {env : String → Int} {xs : List Expr} (h : BEnvL env xs) :
    ∀ x ∈ xs, BEnv env x :=
  fun x hx p hp => h p (varsOf_mem_sublist hx p hp)

theorem sumS_bounds (env : String → Int) (xs : List Expr)
    (h : ∀ x ∈ xs, emin x ≤ evalE env x ∧ evalE env x ≤ emax x) :
    eminS xs ≤ evalL env xs ∧ evalL env xs ≤ emaxS xs := by
  induction xs with
  | nil => simp [eminS, emaxS, evalL]
  | cons y ys ih =>
    have hy := h y (List.mem_cons_self y ys)
    have hys := ih (fun x hx => h x (List.mem_cons_of_mem y hx))
    simp only [eminS, emaxS, evalL]
    exact ⟨add_le_add hy.1 hys.1, add_le_add hy.2 hys.2⟩

theorem one_le_emaxA (xs : List Expr) : 1 ≤ emaxA xs := by
  induction xs with
  | nil => simp [emaxA]
  | cons y ys ih => exact le_trans ih (le_max_right _ _)

theorem eminA_le_one (xs : List Expr) (h : ∀ x ∈ xs, emin x ≤ 1) : eminA xs ≤ 1 := by
  cases xs with
  | nil => simp [eminA]
  | cons y ys =>
    exact le_trans (min_le_left _ _) (h y (List.mem_cons_self y ys))

theorem eminA_le_of_mem {xs : List Expr} {x : Expr} (hx : x ∈ xs) : eminA xs ≤ emin x := by
  induction xs with
  | nil => cases hx
  | cons y ys ih =>
    cases hx with
    | head => exact min_le_left _ _
    | tail _ hmem => exact le_trans (min_le_right _ _) (ih hmem)

theorem emaxA_nonneg (xs : List Expr) (h : ∀ x ∈ xs, 0 ≤ emax x) : 0 ≤ emaxA xs := by
  induction xs with
  | nil => simp [emaxA]
  | cons y ys ih =>
    exact le_trans (ih (fun x hx => h x (List.mem_cons_of_mem y hx))) (le_max_right _ _)

theorem allNZ_false {env : String → Int} {xs : List Expr} (h : allNZ env xs = false) :
    ∃ x ∈ xs, evalE env x = 0 := by
  induction xs with
  | nil => simp [allNZ] at h
  | cons y ys ih =>
    simp only [allNZ, Bool.and_eq_false_iff] at h
    cases h with
    | inl h0 =>
      refine ⟨y, List.mem_cons_self y ys, ?_⟩
      simpa using h0
    | inr h0 =>
      obtain ⟨x, hx, hx0⟩ := ih h0
      exact ⟨x, List.mem_cons_of_mem y hx, hx0⟩

/-- Soundness of the interval bounds (spec section 3, expression node
invariant): on any in-bounds assignment, a well-formed expression
evaluates within `[min, max]`. -/
theorem bounds_sound (env : String → Int) :
    ∀ e : Expr, WFb e = true → BEnv env e → emin e ≤ evalE env e ∧ evalE env e ≤ emax e := by
  intro e
  induction e using Expr.rec
    (motive_2 := fun xs =>
      ∀ x ∈ xs, WFb x = true → BEnv env x → emin x ≤ evalE env x ∧ evalE env x ≤ emax x) with
  | num c => intro _ _; simp [emin, emax, evalE]
  | var n lo hi =>
    intro _ hb
    have := hb (n, lo, hi) (by simp [varsOf])
    simpa [emin, emax, evalE] using this
  | mul a b ih =>
    intro hw hb
    have ha := ih (by simpa [WFb] using hw) (by simpa [BEnv, varsOf] using hb)
    simp only [emin, emax, evalE]
    rcases le_or_lt 0 b with hb0 | hb0
    · simp only [if_pos hb0]
      exact ⟨mul_le_mul_of_nonneg_right ha.1 hb0, mul_le_mul_of_nonneg_right ha.2 hb0⟩
    · simp only [if_neg (not_le.mpr hb0)]
      exact ⟨mul_le_mul_of_nonpos_right ha.2 (le_of_lt hb0),
             mul_le_mul_of_nonpos_right ha.1 (le_of_lt hb0)⟩
  | div a b ih =>
    intro hw hb
    simp only [WFb, Bool.and_eq_true, decide_eq_true_eq] at hw
    have ha := ih hw.1 (by simpa [BEnv, varsOf] using hb)
    simp only [emin, emax, evalE]
    exact ⟨Int.ediv_le_ediv hw.2 ha.1, Int.ediv_le_ediv hw.2 ha.2⟩
  | mod a b ih =>
    intro hw _
    simp only [WFb, Bool.and_eq_true, decide_eq_true_eq] at hw
    simp only [emin, emax, evalE]
    have h1 := Int.emod_nonneg (evalE env a) (ne_of_gt hw.2)
    have h2 := Int.emod_lt_of_pos (evalE env a) hw.2
    omega
  | sum xs ih =>
    intro hw hb
    have hmem : ∀ x ∈ xs, emin x ≤ evalE env x ∧ evalE env x ≤ emax x := by
      intro x hx
      exact ih x hx (WFL_mem (by simpa [WFb] using hw) x hx)
        (BEnvL_mem (by simpa [BEnv, varsOf, BEnvL] using hb) x hx)
    simpa [emin, emax, evalE] using sumS_bounds env xs hmem
  | ands xs ih =>
    intro hw hb
    have hA := WFA_mem (by simpa [WFb] using hw)
    have hmem : ∀ x ∈ xs, emin x ≤ evalE env x ∧ evalE env x ≤ emax x := by
      intro x hx
      exact ih x hx (hA x hx).1 (BEnvL_mem (by simpa [BEnv, varsOf, BEnvL] using hb) x hx)
    simp only [emin, emax, evalE]
    by_cases hz : allNZ env xs
    · simp only [if_pos hz]
      refine ⟨eminA_le_one xs ?_, one_le_emaxA xs⟩
      intro x hx
      exact le_trans (hmem x hx).1 (le_trans (hmem x hx).2 (hA x hx).2.2)
    · simp only [if_neg hz]
      obtain ⟨x0, hx0, hval⟩ := allNZ_false (by simpa using hz)
      constructor
      · exact le_trans (eminA_le_of_mem hx0) (hval ▸ (hmem x0 hx0).1)
      · refine emaxA_nonneg xs ?_
        intro x hx
        exact le_trans (hA x hx).2.1 (le_trans (hmem x hx).1 (hmem x hx).2)
  | lt a b ih =>
    intro _ _
    simp only [emin, emax, evalE]
    by_cases h : evalE env a < b <;> simp [h]
  | ge a b ih =>
    intro _ _
    simp only [emin, emax, evalE]
    by_cases h : b ≤ evalE env a <;> simp [h]
  | nil =>
    rename_i x hmem hw hb
    cases hmem
  | cons y ys ihy ihys =>
    rename_i x hmem hw hb
    cases hmem with
    | head => exact ihy hw hb
    | tail _ hmem2 => exact ihys x hmem2 hw hb

/-! ### Evaluation, well-formedness and variable-set lemmas for the
smart constructors -/

theorem evalL_append (env : String → Int) (as bs : List Expr) :
    evalL env (as ++ bs) = evalL env as + evalL env bs := by
  induction as with
  | nil => simp [evalL]
  | cons x xs ih => simp [evalL, ih]; ring

theorem evalL_sumFlat (env : String → Int) (xs : List Expr) :
    evalL env (sumFlat xs) = evalL env xs := by
  induction xs with
  | nil => rfl
  | cons x xs ih =>
    rw [sumFlat, List.flatMap_cons, evalL_append]
    rw [sumFlat] at ih
    rw [ih]
    cases x <;> simp [evalL, evalE]

theorem evalL_split (env : String → Int) (fl : List Expr) :
    evalL env fl = sumConst fl + evalL env (sumTerms fl) := by
  induction fl with
  | nil => simp [sumConst, sumTerms, evalL]
  | cons x xs ih =>
    cases x <;> simp [sumConst, sumTerms, evalL, evalE, ih] <;> ring

theorem sumc_eval (env : String → Int) (xs : List Expr) :
    evalE env (sumc xs) = evalL env xs := by
  have hsplit := evalL_split env (sumFlat xs)
  have hflat := evalL_sumFlat env xs
  simp only [sumc]
  by_cases hts : (sumTerms (sumFlat xs)).isEmpty
  · simp only [if_pos hts]
    have he : sumTerms (sumFlat xs) = [] := by
      cases h : sumTerms (sumFlat xs) <;> simp_all [List.isEmpty]
    rw [he] at hsplit
    simp only [evalL] at hsplit
    simp only [evalE]
    omega
  · simp only [if_neg hts]
    by_cases hc : sumConst (sumFlat xs) = 0
    · simp only [if_pos hc]
      rw [hc] at hsplit
      cases h : sumTerms (sumFlat xs) with
      | nil => simp [h] at hts
      | cons t rest =>
        rw [h] at hsplit
        cases rest with
        | nil =>
          show evalE env t = evalL env xs
          simp only [evalL] at hsplit
          omega
        | cons t2 rest2 =>
          show evalE env (Expr.sum (t :: t2 :: rest2)) = evalL env xs
          simp only [evalE]
          omega
    · simp only [if_neg hc, evalE, evalL_append]
      simp only [evalL, evalE]
      omega

theorem mulc_eval (env : String → Int) :
    ∀ e : Expr, ∀ k : Int, evalE env (mulc e k) = evalE env e * k := by
  intro e
  induction e using Expr.rec
    (motive_2 := fun xs => ∀ k : Int, evalL env (mulcL xs k) = evalL env xs * k) with
  | num c => intro k; by_cases h0 : k = 0 <;> by_cases h1 : k = 1 <;>
      simp [mulc, h0, h1, evalE] <;> ring
  | var n lo hi => intro k; by_cases h0 : k = 0 <;> by_cases h1 : k = 1 <;>
      simp [mulc, h0, h1, evalE]
  | mul a b ih =>
    intro k
    by_cases h0 : k = 0
    · simp [mulc, h0, evalE]
    · by_cases h1 : k = 1
      · simp [mulc, h0, h1, evalE]
      · simp only [mulc, if_neg h0, if_neg h1]
        rw [ih (b * k)]
        simp [evalE]; ring
  | div a b ih => intro k; by_cases h0 : k = 0 <;> by_cases h1 : k = 1 <;>
      simp [mulc, h0, h1, evalE]
  | mod a b ih => intro k; by_cases h0 : k = 0 <;> by_cases h1 : k = 1 <;>
      simp [mulc, h0, h1, evalE]
  | sum xs ih =>
    intro k
    by_cases h0 : k = 0
    · simp [mulc, h0, evalE]
    · by_cases h1 : k = 1
      · simp [mulc, h0, h1, evalE]
      · simp only [mulc, if_neg h0, if_neg h1]
        rw [sumc_eval, ih k]
        simp [evalE]
  | ands xs ih => intro k; by_cases h0 : k = 0 <;> by_cases h1 : k = 1 <;>
      simp [mulc, h0, h1, evalE]
  | lt a b ih => intro k; by_cases h0 : k = 0 <;> by_cases h1 : k = 1 <;>
      simp [mulc, h0, h1, evalE]
  | ge a b ih => intro k; by_cases h0 : k = 0 <;> by_cases h1 : k = 1 <;>
      simp [mulc, h0, h1, evalE]
  | nil => rename_i k; simp [mulcL, evalL]
  | cons y ys ihy ihys =>
    rename_i k
    simp only [mulcL, evalL, ihy, ihys]
    ring

theorem sumDivide_eval (env : String → Int) (k : Int) (hk : 0 < k) :
    ∀ xs : List Expr, sumDivisible k xs = true →
      evalL env (sumDivide k xs) * k = evalL env xs := by
  intro xs
  induction xs with
  | nil => intro _; simp [sumDivide, evalL]
  | cons x rest ih =>
    intro hdvd
    cases x with
    | num c =>
      simp only [sumDivisible, Bool.and_eq_true, decide_eq_true_eq] at hdvd
      have hc : c / k * k = c := Int.ediv_mul_cancel (Int.dvd_of_emod_eq_zero hdvd.1)
      simp only [sumDivide, evalL, evalE, ih hdvd.2]
      rw [add_mul, hc, ih hdvd.2]
    | mul a b =>
      simp only [sumDivisible, Bool.and_eq_true, decide_eq_true_eq] at hdvd
      have hb : b / k * k = b := Int.ediv_mul_cancel (Int.dvd_of_emod_eq_zero hdvd.1)
      simp only [sumDivide, evalL, evalE, mulc_eval]
      rw [add_mul, ih hdvd.2, mul_assoc, hb]
    | var n lo hi => simp [sumDivisible] at hdvd
    | div a b => simp [sumDivisible] at hdvd
    | mod a b => simp [sumDivisible] at hdvd
    | sum ys => simp [sumDivisible] at hdvd
    | ands ys => simp [sumDivisible] at hdvd
    | lt a b => simp [sumDivisible] at hdvd
    | ge a b => simp [sumDivisible] at hdvd

theorem divc_eval (env : String → Int) (e : Expr) (k : Int)
    (hw : WFb e = true) (hb : BEnv env e) {r : Expr}
    (hr : divc e k = some r) : evalE env r = evalE env e / k := by
  rw [divc.eq_def] at hr
  split at hr
  · cases hr
  rename_i hk0
  have hk : 0 < k := lt_of_not_ge hk0
  split at hr
  · rename_i hk1
    cases hr
    simp [hk1]
  split at hr
  · rename_i hbd
    cases hr
    have hs := bounds_sound env e hw hb
    have h0 : 0 ≤ evalE env e := le_trans hbd.1 hs.1
    have h1 : evalE env e < k := lt_of_le_of_lt hs.2 hbd.2
    simp [evalE, (Int.ediv_eq_zero_of_lt h0 h1).symm]
  rename_i hbd
  split at hr
  · rename_i x0 ys
    split at hr
    · rename_i hdvd
      cases hr
      rw [sumc_eval]
      have hmul := sumDivide_eval env k hk ys hdvd
      have heq : evalL env ys / k = evalL env (sumDivide k ys) := by
        rw [← hmul]
        exact (Int.mul_ediv_cancel _ (ne_of_gt hk))
      simp [evalE, heq]
    · cases hr
      simp [evalE]
  · cases hr
    simp [evalE]

theorem modc_eval (env : String → Int) (e : Expr) (k : Int)
    (hw : WFb e = true) (hb : BEnv env e) {r : Expr}
    (hr : modc e k = some r) : evalE env r = evalE env e % k := by
  rw [modc.eq_def] at hr
  split at hr
  · cases hr
  rename_i hk0
  have hk : 0 < k := lt_of_not_ge hk0
  split at hr
  · rename_i hk1
    cases hr
    simp [evalE, hk1]
  split at hr
  · rename_i hbd
    cases hr
    have hs := bounds_sound env e hw hb
    exact (Int.emod_eq_of_lt (le_trans hbd.1 hs.1) (lt_of_le_of_lt hs.2 hbd.2)).symm
  rename_i hbd
  split at hr
  · rename_i x0 ys
    split at hr
    · rename_i hdvd
      cases hr
      have hmul := sumDivide_eval env k hk ys hdvd
      have hdv : k ∣ evalL env ys := ⟨evalL env (sumDivide k ys), by rw [← hmul]; ring⟩
      simp [evalE, (Int.emod_eq_zero_of_dvd hdv).symm]
    · cases hr
      simp [evalE]
  · rename_i x0 e2 k2
    split at hr
    · rename_i hcmp
      simp only [WFb, Bool.and_eq_true, decide_eq_true_eq] at hw
      have hrec := modc_eval env e2 k hw.1 (by simpa [BEnv, varsOf] using hb) hr
      rw [hrec]
      show evalE env e2 % k = evalE env e2 % k2 % k
      exact (Int.emod_emod_of_dvd _ (Int.dvd_of_emod_eq_zero hcmp.2)).symm
    · cases hr
      simp [evalE]
  · cases hr
    simp [evalE]
termination_by sizeOf e
decreasing_by
  subst_vars
  simp
  omega

/-! ### Well-formedness preservation and variable-set lemmas -/

theorem WFL_intro {xs : List Expr} (h : ∀ x ∈ xs, WFb x = true) : WFL xs = true := by
  induction xs with
  | nil => rfl
  | cons y ys ih =>
    simp only [WFL, Bool.and_eq_true]
    exact ⟨h y (List.mem_cons_self y ys), ih (fun x hx => h x (List.mem_cons_of_mem y hx))⟩

theorem WFL_append {as bs : List Expr} (ha : WFL as = true) (hb : WFL bs = true) :
    WFL (as ++ bs) = true := by
  induction as with
  | nil => simpa using hb
  | cons y ys ih =>
    simp only [WFL, Bool.and_eq_true] at ha ⊢
    exact ⟨ha.1, ih ha.2⟩

theorem sumFlat_WF {xs : List Expr} (h : WFL xs = true) : WFL (sumFlat xs) = true := by
  induction xs with
  | nil => rfl
  | cons x rest ih =>
    simp only [WFL, Bool.and_eq_true] at h
    rw [sumFlat, List.flatMap_cons]
    rw [sumFlat] at ih
    refine WFL_append ?_ (ih h.2)
    cases x <;> simp_all [WFL, WFb]

theorem mem_sumTerms {fl : List Expr} {y : Expr} (hy : y ∈ sumTerms fl) : y ∈ fl := by
  induction fl with
  | nil => cases hy
  | cons x rest ih =>
    cases x <;> simp only [sumTerms, List.mem_cons] at hy ⊢ <;>
      first
        | exact Or.inr (ih hy)
        | (cases hy with
           | inl h => exact Or.inl h
           | inr h => exact Or.inr (ih h))

theorem sumc_WF {xs : List Expr} (h : WFL xs = true) : WFb (sumc xs) = true := by
  have hfl : WFL (sumFlat xs) = true := sumFlat_WF h
  have hterm : ∀ y ∈ sumTerms (sumFlat xs), WFb y = true :=
    fun y hy => WFL_mem hfl y (mem_sumTerms hy)
  simp only [sumc]
  split
  · rfl
  split
  · split
    · rename_i t heq
      exact hterm t (heq ▸ List.mem_cons_self t [])
    · rename_i hne
      exact WFL_intro hterm
  · show WFL (sumTerms (sumFlat xs) ++ [Expr.num _]) = true
    exact WFL_append (WFL_intro hterm) rfl

theorem mulc_WF : ∀ e : Expr, ∀ k : Int, WFb e = true → WFb (mulc e k) = true := by
  intro e
  induction e using Expr.rec
    (motive_2 := fun xs => ∀ k : Int, WFL xs = true → WFL (mulcL xs k) = true) with
  | num c => intro k _; by_cases h0 : k = 0 <;> by_cases h1 : k = 1 <;> simp [mulc, h0, h1, WFb]
  | var n lo hi => intro k hw
                   by_cases h0 : k = 0 <;> by_cases h1 : k = 1 <;> simp [mulc, h0, h1, WFb]
  | mul a b ih =>
    intro k hw
    by_cases h0 : k = 0
    · simp [mulc, h0, WFb]
    by_cases h1 : k = 1
    · simp only [mulc, if_neg h0, if_pos h1]; exact hw
    simp only [mulc, if_neg h0, if_neg h1]
    exact ih (b * k) (by simpa [WFb] using hw)
  | div a b ih =>
    intro k hw
    by_cases h0 : k = 0 <;> by_cases h1 : k = 1 <;>
      simp only [mulc, if_pos, if_neg, h0, h1, ite_true, ite_false] <;>
      simp_all [WFb]
  | mod a b ih =>
    intro k hw
    by_cases h0 : k = 0 <;> by_cases h1 : k = 1 <;>
      simp only [mulc, if_pos, if_neg, h0, h1, ite_true, ite_false] <;>
      simp_all [WFb]
  | sum xs ih =>
    intro k hw
    by_cases h0 : k = 0
    · simp [mulc, h0, WFb]
    by_cases h1 : k = 1
    · simp only [mulc, if_neg h0, if_pos h1]; exact hw
    simp only [mulc, if_neg h0, if_neg h1]
    exact sumc_WF (ih k (by simpa [WFb] using hw))
  | ands xs ih =>
    intro k hw
    by_cases h0 : k = 0 <;> by_cases h1 : k = 1 <;>
      simp only [mulc, if_pos, if_neg, h0, h1, ite_true, ite_false] <;>
      simp_all [WFb]
  | lt a b ih =>
    intro k hw
    by_cases h0 : k = 0 <;> by_cases h1 : k = 1 <;>
      simp only [mulc, if_pos, if_neg, h0, h1, ite_true, ite_false] <;>
      simp_all [WFb]
  | ge a b ih =>
    intro k hw
    by_cases h0 : k = 0 <;> by_cases h1 : k = 1 <;>
      simp only [mulc, if_pos, if_neg, h0, h1, ite_true, ite_false] <;>
      simp_all [WFb]
  | nil => rfl
  | cons y ys ihy ihys =>
    rename_i k h
    simp only [WFL, Bool.and_eq_true] at h ⊢
    exact ⟨ihy k h.1, ihys k h.2⟩

theorem sumDivide_WF {k : Int} : ∀ xs : List Expr, WFL xs = true → WFL (sumDivide k xs) = true := by
  intro xs
  induction xs with
  | nil => intro _; rfl
  | cons x rest ih =>
    intro h
    simp only [WFL, Bool.and_eq_true] at h
    cases x <;> simp only [sumDivide, WFL, Bool.and_eq_true] <;>
      refine ⟨?_, ih h.2⟩ <;>
      first
        | rfl
        | exact mulc_WF _ _ (by simpa [WFb] using h.1)
        | exact h.1

theorem divc_WF {e : Expr} {k : Int} {r : Expr} (hw : WFb e = true)
    (hr : divc e k = some r) : WFb r = true := by
  rw [divc.eq_def] at hr
  split at hr
  · cases hr
  rename_i hk0
  split at hr
  · cases hr; exact hw
  split at hr
  · cases hr; rfl
  rename_i hbd
  split at hr
  · rename_i x0 ys
    split at hr
    · cases hr
      exact sumc_WF (sumDivide_WF _ (by simpa [WFb] using hw))
    · cases hr
      simp only [WFb, Bool.and_eq_true, decide_eq_true_eq]
      exact ⟨by simpa [WFb] using hw, lt_of_not_ge hk0⟩
  · cases hr
    simp only [WFb, Bool.and_eq_true, decide_eq_true_eq]
    exact ⟨hw, lt_of_not_ge hk0⟩

theorem modc_WF {e : Expr} {k : Int} {r : Expr} (hw : WFb e = true)
    (hr : modc e k = some r) : WFb r = true := by
  rw [modc.eq_def] at hr
  split at hr
  · cases hr
  rename_i hk0
  split at hr
  · cases hr; rfl
  split at hr
  · cases hr; exact hw
  rename_i hbd
  split at hr
  · rename_i x0 ys
    split at hr
    · cases hr; rfl
    · cases hr
      simp only [WFb, Bool.and_eq_true, decide_eq_true_eq]
      exact ⟨by simpa [WFb] using hw, lt_of_not_ge hk0⟩
  · rename_i x0 e2 k2
    split at hr
    · refine modc_WF ?_ hr
      simp only [WFb, Bool.and_eq_true, decide_eq_true_eq] at hw
      exact hw.1
    · cases hr
      simp only [WFb, Bool.and_eq_true, decide_eq_true_eq]
      constructor
      · simpa [WFb] using hw
      · exact lt_of_not_ge hk0
  · cases hr
    simp only [WFb, Bool.and_eq_true, decide_eq_true_eq]
    exact ⟨hw, lt_of_not_ge hk0⟩
termination_by sizeOf e
decreasing_by
  subst_vars
  simp
  omega

theorem varc_WF (n : String) (lo hi : Int) : WFb (varc n lo hi) = true := by
  rw [varc]; split <;> rfl

theorem varsOfL_append (as bs : List Expr) :
    varsOfL (as ++ bs) = varsOfL as ++ varsOfL bs := by
  induction as with
  | nil => simp [varsOfL]
  | cons y ys ih => simp [varsOfL, ih]

theorem varsOfL_iff {xs : List Expr} {p : String × Int × Int} :
    p ∈ varsOfL xs ↔ ∃ y ∈ xs, p ∈ varsOf y := by
  induction xs with
  | nil => simp [varsOfL]
  | cons y ys ih =>
    simp only [varsOfL, List.mem_append, ih, List.mem_cons]
    constructor
    · rintro (h | ⟨z, hz, hp⟩)
      · exact ⟨y, Or.inl rfl, h⟩
      · exact ⟨z, Or.inr hz, hp⟩
    · rintro ⟨z, hz | hz, hp⟩
      · exact Or.inl (hz ▸ hp)
      · exact Or.inr ⟨z, hz, hp⟩

theorem mem_sumFlat {xs : List Expr} {y : Expr} (hy : y ∈ sumFlat xs) :
    y ∈ xs ∨ ∃ ys, Expr.sum ys ∈ xs ∧ y ∈ ys := by
  induction xs with
  | nil => cases hy
  | cons x rest ih =>
    rw [sumFlat, List.flatMap_cons, List.mem_append] at hy
    rw [sumFlat] at ih
    cases hy with
    | inl h =>
      cases x <;> simp only [List.mem_singleton] at h
      case sum ys => exact Or.inr ⟨ys, List.mem_cons_self _ _, h⟩
      all_goals subst h; exact Or.inl (List.mem_cons_self _ _)
    | inr h =>
      cases ih h with
      | inl h2 => exact Or.inl (List.mem_cons_of_mem _ h2)
      | inr h2 =>
        obtain ⟨ys, hys, hyy⟩ := h2
        exact Or.inr ⟨ys, List.mem_cons_of_mem _ hys, hyy⟩

theorem varsOfL_sumFlat {xs : List Expr} {p : String × Int × Int}
    (hp : p ∈ varsOfL (sumFlat xs)) : p ∈ varsOfL xs := by
  rw [varsOfL_iff] at hp ⊢
  obtain ⟨y, hy, hpy⟩ := hp
  cases mem_sumFlat hy with
  | inl h => exact ⟨y, h, hpy⟩
  | inr h =>
    obtain ⟨ys, hys, hyy⟩ := h
    refine ⟨Expr.sum ys, hys, ?_⟩
    show p ∈ varsOfL ys
    rw [varsOfL_iff]
    exact ⟨y, hyy, hpy⟩

theorem varsOfL_sumTerms {fl : List Expr} {p : String × Int × Int}
    (hp : p ∈ varsOfL (sumTerms fl)) : p ∈ varsOfL fl := by
  rw [varsOfL_iff] at hp ⊢
  obtain ⟨y, hy, hpy⟩ := hp
  exact ⟨y, mem_sumTerms hy, hpy⟩

theorem varsOf_sumc {xs : List Expr} {p : String × Int × Int}
    (hp : p ∈ varsOf (sumc xs)) : p ∈ varsOfL xs := by
  simp only [sumc] at hp
  split at hp
  · cases hp
  · split at hp
    · split at hp
      · rename_i t heq
        refine varsOfL_sumFlat (varsOfL_sumTerms ?_)
        rw [varsOfL_iff]
        exact ⟨t, heq ▸ List.mem_cons_self t [], hp⟩
      · exact varsOfL_sumFlat (varsOfL_sumTerms hp)
    · show p ∈ varsOfL xs
      have : p ∈ varsOfL (sumTerms (sumFlat xs) ++ [Expr.num _]) := hp
      rw [varsOfL_append] at this
      simp only [varsOfL, varsOf, List.append_nil] at this
      exact varsOfL_sumFlat (varsOfL_sumTerms this)

theorem varsOf_mulc : ∀ e : Expr, ∀ (k : Int) (p : String × Int × Int),
    p ∈ varsOf (mulc e k) → p ∈ varsOf e := by
  intro e
  induction e using Expr.rec
    (motive_2 := fun xs => ∀ (k : Int) (p : String × Int × Int),
      p ∈ varsOfL (mulcL xs k) → p ∈ varsOfL xs) with
  | num c => intro k p hp; by_cases h0 : k = 0 <;> by_cases h1 : k = 1 <;>
      simp_all [mulc, varsOf]
  | var n lo hi => intro k p hp; by_cases h0 : k = 0 <;> by_cases h1 : k = 1 <;>
      simp_all [mulc, varsOf]
  | mul a b ih =>
    intro k p hp
    by_cases h0 : k = 0
    · simp [mulc, h0, varsOf] at hp
    by_cases h1 : k = 1
    · simp only [mulc, if_neg h0, if_pos h1] at hp; exact hp
    simp only [mulc, if_neg h0, if_neg h1] at hp
    exact ih (b * k) p hp
  | div a b ih =>
    intro k p hp
    by_cases h0 : k = 0 <;> by_cases h1 : k = 1 <;> simp_all [mulc, varsOf]
  | mod a b ih =>
    intro k p hp
    by_cases h0 : k = 0 <;> by_cases h1 : k = 1 <;> simp_all [mulc, varsOf]
  | sum xs ih =>
    intro k p hp
    by_cases h0 : k = 0
    · simp [mulc, h0, varsOf] at hp
    by_cases h1 : k = 1
    · simp only [mulc, if_neg h0, if_pos h1] at hp; exact hp
    simp only [mulc, if_neg h0, if_neg h1] at hp
    exact ih k p (varsOf_sumc hp)
  | ands xs ih =>
    intro k p hp
    by_cases h0 : k = 0 <;> by_cases h1 : k = 1 <;> simp_all [mulc, varsOf]
  | lt a b ih =>
    intro k p hp
    by_cases h0 : k = 0 <;> by_cases h1 : k = 1 <;> simp_all [mulc, varsOf]
  | ge a b ih =>
    intro k p hp
    by_cases h0 : k = 0 <;> by_cases h1 : k = 1 <;> simp_all [mulc, varsOf]
  | nil => rename_i k p hp; exact hp
  | cons y ys ihy ihys =>
    rename_i k p hp
    simp only [mulcL, varsOfL, List.mem_append] at hp ⊢
    cases hp with
    | inl h => exact Or.inl (ihy k p h)
    | inr h => exact Or.inr (ihys k p h)

theorem varsOfL_sumDivide {k : Int} : ∀ xs : List Expr, ∀ p : String × Int × Int,
    p ∈ varsOfL (sumDivide k xs) → p ∈ varsOfL xs := by
  intro xs
  induction xs with
  | nil => intro p hp; exact hp
  | cons x rest ih =>
    intro p hp
    cases x <;> simp only [sumDivide, varsOfL, varsOf, List.mem_append] at hp ⊢ <;>
      first
        | exact Or.imp id (ih p) hp
        | (cases hp with
           | inl h => exact Or.inl (varsOf_mulc _ _ p h)
           | inr h => exact Or.inr (ih p h))
        | exact Or.inr (ih p (by simpa using hp))

theorem varsOf_divc {e : Expr} {k : Int} {r : Expr}
    (hr : divc e k = some r) {p : String × Int × Int}
    (hp : p ∈ varsOf r) : p ∈ varsOf e := by
  rw [divc.eq_def] at hr
  split at hr
  · cases hr
  split at hr
  · cases hr; exact hp
  split at hr
  · cases hr; cases hp
  rename_i hbd
  split at hr
  · rename_i x0 ys
    split at hr
    · cases hr
      exact varsOfL_sumDivide ys p (varsOf_sumc hp)
    · cases hr; exact hp
  · cases hr; exact hp

theorem varsOf_modc {e : Expr} {k : Int} {r : Expr}
    (hr : modc e k = some r) {p : String × Int × Int}
    (hp : p ∈ varsOf r) : p ∈ varsOf e := by
  rw [modc.eq_def] at hr
  split at hr
  · cases hr
  split at hr
  · cases hr; cases hp
  split at hr
  · cases hr; exact hp
  rename_i hbd
  split at hr
  · rename_i x0 ys
    split at hr
    · cases hr; cases hp
    · cases hr; exact hp
  · rename_i x0 e2 k2
    split at hr
    · exact varsOf_modc hr hp
    · cases hr; exact hp
  · cases hr; exact hp
termination_by sizeOf e
decreasing_by
  subst_vars
  simp
  omega


/-! ### Success and positivity lemmas -/

theorem divc_none {e : Expr} {k : Int} (h : divc e k = none) : k ≤ 0 := by
  rw [divc.eq_def] at h
  split at h
  · assumption
  split at h
  · cases h
  split at h
  · cases h
  split at h
  · split at h <;> cases h
  · cases h

theorem modc_none {e : Expr} {k : Int} (h : modc e k = none) : k ≤ 0 := by
  rw [modc.eq_def] at h
  split at h
  · assumption
  split at h
  · cases h
  split at h
  · cases h
  split at h
  · split at h <;> cases h
  · split at h
    · exact modc_none h
    · cases h
  · cases h
termination_by sizeOf e
decreasing_by
  subst_vars
  simp
  omega

theorem mem_dropLast_mem {α : Type} {l : List α} {a : α} (h : a ∈ l.dropLast) : a ∈ l := by
  induction l with
  | nil => cases h
  | cons x xs ih =>
    cases xs with
    | nil => cases h
    | cons y ys =>
      rw [List.dropLast_cons₂, List.mem_cons] at h
      cases h with
      | inl h0 => exact h0 ▸ List.mem_cons_self _ _
      | inr h0 => exact List.mem_cons_of_mem _ (ih h0)

theorem tssGo_pos : ∀ (rest : List (Int × Int)) (cur : Int × Int),
    1 ≤ cur.1 → (∀ p ∈ rest, 1 ≤ p.1) →
    ∀ q ∈ tssGo cur rest, 1 ≤ q.1 := by
  intro rest
  induction rest with
  | nil =>
    intro cur hcur _ q hq
    simp only [tssGo, List.mem_singleton] at hq
    exact hq ▸ hcur
  | cons p ps ih =>
    intro cur hcur hmem q hq
    obtain ⟨sh, st⟩ := p
    rw [tssGo] at hq
    split at hq
    · refine ih (cur.1 * sh, st) ?_ (fun r hr => hmem r (List.mem_cons_of_mem _ hr)) q hq
      have hsh : (1 : Int) ≤ sh := hmem (sh, st) (List.mem_cons_self _ _)
      calc (1 : Int) = 1 * 1 := by ring
        _ ≤ cur.1 * sh := mul_le_mul hcur hsh (by norm_num) (le_trans zero_le_one hcur)
    · rw [List.mem_cons] at hq
      cases hq with
      | inl h0 => exact h0 ▸ hcur
      | inr h0 =>
        exact ih (sh, st) (hmem (sh, st) (List.mem_cons_self _ _))
          (fun r hr => hmem r (List.mem_cons_of_mem _ hr)) q h0

theorem shape_strides_pos {v : View} (hok : v.ok) :
    ∀ q ∈ v.shape_strides, 1 ≤ q.1 := by
  intro q hq
  rw [View.shape_strides, to_shape_strides] at hq
  split at hq
  · cases hq
  · rename_i p rest heq
    refine tssGo_pos rest p ?_ ?_ q hq
    · have : p ∈ v.shape.zip v.strides := heq ▸ List.mem_cons_self _ _
      exact hok.1 p.1 (List.of_mem_zip this).1
    · intro r hr
      have : r ∈ v.shape.zip v.strides := heq ▸ List.mem_cons_of_mem _ hr
      exact hok.1 r.1 (List.of_mem_zip this).1

/-! ### Correctness of the symbolic index expressions against the
numeric walk -/

theorem vLoop_correct (env : String → Int) (idx : Expr)
    (hw : WFb idx = true) (hb : BEnv env idx) :
    ∀ (ms : List (Int × Int)) (acc : Int), 0 < acc → (∀ q ∈ ms, 1 ≤ q.1) →
    ∃ ts, vLoop idx ms acc = some ts ∧
      evalL env ts = numLoop (evalE env idx) ms acc ∧
      WFL ts = true ∧
      (∀ p ∈ varsOfL ts, p ∈ varsOf idx) := by
  intro ms
  induction ms with
  | nil =>
    intro acc _ _
    exact ⟨[], rfl, by simp [evalL, numLoop], rfl,
      fun p hp => absurd hp (by simp [varsOfL])⟩
  | cons q0 rest ih =>
    obtain ⟨d, s⟩ := q0
    intro acc hacc hmem
    have hd : (1 : Int) ≤ d := hmem (d, s) (List.mem_cons_self _ _)
    have hrest : ∀ r ∈ rest, (1 : Int) ≤ r.1 :=
      fun r hr => hmem r (List.mem_cons_of_mem _ hr)
    have haccd : 0 < acc * d := mul_pos hacc (by omega)
    obtain ⟨ts, hts, hev, hwf, hvars⟩ := ih (acc * d) haccd hrest
    by_cases hcond : d ≠ 1 ∧ s ≠ 0
    · cases hq : divc idx acc with
      | none => exact absurd (divc_none hq) (by omega)
      | some qd =>
        have hqev := divc_eval env idx acc hw hb hq
        have hqwf := divc_WF hw hq
        have hqvars : ∀ p ∈ varsOf qd, p ∈ varsOf idx :=
          fun p hp => varsOf_divc hq hp
        have hqb : BEnv env qd := fun p hp => hb p (hqvars p hp)
        cases hm : modc qd d with
        | none => exact absurd (modc_none hm) (by omega)
        | some m =>
          have hmev := modc_eval env qd d hqwf hqb hm
          have hmwf := modc_WF hqwf hm
          have hmvars : ∀ p ∈ varsOf m, p ∈ varsOf qd :=
            fun p hp => varsOf_modc hm hp
          refine ⟨mulc m s :: ts, ?_, ?_, ?_, ?_⟩
          · simp only [vLoop, if_pos hcond, hq, hm, hts]
          · rw [evalL, mulc_eval, hmev, hqev, numLoop, if_pos hcond, hev]
          · simp only [WFL, Bool.and_eq_true]
            exact ⟨mulc_WF m s hmwf, hwf⟩
          · intro p hp
            rw [varsOfL, List.mem_append] at hp
            cases hp with
            | inl h0 => exact hqvars p (hmvars p (varsOf_mulc m s p h0))
            | inr h0 => exact hvars p h0
    · refine ⟨ts, ?_, ?_, hwf, hvars⟩
      · rw [vLoop, if_neg hcond]; exact hts
      · rw [hev, numLoop, if_neg hcond]; ring

theorem expr_node_correct (env : String → Int) {w : View} (hok : w.ok)
    {idx : Expr} (hw : WFb idx = true) (hb : BEnv env idx) :
    ∃ e, w.expr_node idx = some e ∧
      evalE env e = w.indexOf (evalE env idx) ∧
      WFb e = true ∧
      (∀ p ∈ varsOf e, p ∈ varsOf idx) := by
  have hpos : ∀ q ∈ w.shape_strides.reverse, (1 : Int) ≤ q.1 := by
    intro q hq
    exact shape_strides_pos hok q (List.mem_reverse.mp hq)
  obtain ⟨ts, hts, hev, hwf, hvars⟩ :=
    vLoop_correct env idx hw hb w.shape_strides.reverse 1 one_pos hpos
  refine ⟨sumc (.num w.offset :: ts), ?_, ?_, ?_, ?_⟩
  · simp only [View.expr_node, hts]
  · rw [sumc_eval, evalL, hev, View.indexOf]
    simp [evalE]
  · refine sumc_WF ?_
    simp only [WFL, Bool.and_eq_true]
    exact ⟨rfl, hwf⟩
  · intro p hp
    have h2 := varsOf_sumc hp
    rw [varsOfL] at h2
    simp only [varsOf, List.nil_append] at h2
    exact hvars p h2

theorem zvLoop_some (idx : Expr) :
    ∀ (l : List (Int × (Int × (Int × Int)))) (acc : Int), 0 < acc →
      (∀ t ∈ l, 0 < t.2.1) → ∃ cs, zvLoop idx l acc = some cs := by
  intro l
  induction l with
  | nil => intro acc _ _; exact ⟨[], rfl⟩
  | cons t rest ih =>
    obtain ⟨s, ns, x, y⟩ := t
    intro acc hacc hmem
    have hns : (0 : Int) < ns := hmem (s, ns, x, y) (List.mem_cons_self _ _)
    obtain ⟨cs, hcs⟩ :=
      ih (acc * ns) (mul_pos hacc hns) (fun r hr => hmem r (List.mem_cons_of_mem _ hr))
    cases hq : divc idx acc with
    | none => exact absurd (divc_none hq) (by omega)
    | some q =>
      cases hm : modc q ns with
      | none => exact absurd (modc_none hm) (by omega)
      | some m =>
        exact ⟨_, by simp only [zvLoop, hq, hm, hcs]; rfl⟩

theorem zv_expr_node_some {z : ZeroView} (hok : ∀ p ∈ z.arg, p.1 < p.2)
    (idx : Expr) (valid : Option Expr) :
    ∃ e, z.expr_node idx valid = some e := by
  have hpos : ∀ t ∈ (z.old_shape.zip (z.shape.zip z.arg)).reverse, (0 : Int) < t.2.1 := by
    intro t ht
    obtain ⟨s, ns, x, y⟩ := t
    rw [List.mem_reverse] at ht
    have h2 := (List.of_mem_zip ht).2
    have h3 := (List.of_mem_zip h2).1
    rw [ZeroView.shape, List.mem_map] at h3
    obtain ⟨p, hp, hpe⟩ := h3
    have := hok p hp
    show (0 : Int) < ns
    omega
  obtain ⟨cs, hcs⟩ := zvLoop_some idx _ 1 one_pos hpos
  exact ⟨_, by simp only [ZeroView.expr_node, hcs]; rfl⟩

theorem walkList_correct (env : String → Int) :
    ∀ vs : List VT, (∀ v ∈ vs, v.ok) →
    ∀ idx valid : Expr, WFb idx = true → BEnv env idx →
    ∃ pr, walkList vs (idx, valid) = some pr ∧
      evalE env pr.1 = vs.foldl (fun n v => v.walkVal n) (evalE env idx) := by
  intro vs
  induction vs with
  | nil => intro _ idx valid _ _; exact ⟨(idx, valid), rfl, rfl⟩
  | cons v rest ih =>
    intro hok idx valid hw hb
    cases v with
    | view w =>
      obtain ⟨e, he, hev, hwf, hvars⟩ :=
        expr_node_correct env (hok (.view w) (List.mem_cons_self _ _)) hw hb
      obtain ⟨pr, hpr, hprev⟩ :=
        ih (fun u hu => hok u (List.mem_cons_of_mem _ hu)) e valid hwf
          (fun p hp => hb p (hvars p hp))
      refine ⟨pr, ?_, ?_⟩
      · simp only [walkList, he]; exact hpr
      · rw [hprev, hev]
        simp [List.foldl_cons, VT.walkVal]
    | zero z =>
      obtain ⟨e, he⟩ :=
        zv_expr_node_some (hok (.zero z) (List.mem_cons_self _ _)) idx (some valid)
      obtain ⟨pr, hpr, hprev⟩ :=
        ih (fun u hu => hok u (List.mem_cons_of_mem _ hu)) idx e hw hb
      refine ⟨pr, ?_, ?_⟩
      · simp only [walkList, he]; exact hpr
      · rw [hprev]
        simp [List.foldl_cons, VT.walkVal]

theorem getLastD_mem {α : Type} : ∀ (l : List α) (d : α), l ≠ [] → l.getLastD d ∈ l := by
  intro l
  induction l with
  | nil => intro d h; exact absurd rfl h
  | cons v rest ih =>
    intro d _
    cases rest with
    | nil => simp [List.getLastD]
    | cons u us =>
      rw [List.getLastD_cons]
      exact List.mem_cons_of_mem _ (ih v (by simp))

theorem top_mem {st : ShapeTracker} (hne : st.views ≠ []) : st.top ∈ st.views := by
  rw [ShapeTracker.top]
  exact getLastD_mem _ _ hne

theorem norm_pairs : ∀ shape strides : List Int,
    strides = normStrides shape strides →
    ∀ q ∈ shape.zip strides, q.1 = 1 → q.2 = 0 := by
  intro shape
  induction shape with
  | nil => intro strides _ q hq; cases hq
  | cons sh shs ih =>
    intro strides hn q hq
    cases strides with
    | nil => cases hq
    | cons st sts =>
      rw [normStrides, List.zip_cons_cons, List.map_cons] at hn
      have h1 : st = if sh = 1 then 0 else st := (List.cons.injEq _ _ _ _ ▸ hn).1
      have h2 : sts = normStrides shs sts := (List.cons.injEq _ _ _ _ ▸ hn).2
      rw [List.zip_cons_cons, List.mem_cons] at hq
      cases hq with
      | inl h0 =>
        subst h0
        intro hsh1
        rw [if_pos hsh1] at h1
        exact h1
      | inr h0 => exact ih sts h2 q h0

theorem zip_proj12 {α β γ : Type} :
    ∀ (l1 : List α) (l2 : List β) (l3 : List γ) (a : α) (b : β) (c : γ),
      (a, b, c) ∈ l1.zip (l2.zip l3) → (a, b) ∈ l1.zip l2 := by
  intro l1
  induction l1 with
  | nil => intro l2 l3 a b c h; cases h
  | cons x xs ih =>
    intro l2 l3 a b c h
    cases l2 with
    | nil => cases h
    | cons y ys =>
      cases l3 with
      | nil => cases h
      | cons z zs =>
        simp only [List.zip_cons_cons, List.mem_cons] at h ⊢
        cases h with
        | inl h0 =>
          left
          simp only [Prod.mk.injEq] at h0 ⊢
          exact ⟨h0.1, h0.2.1⟩
        | inr h0 => exact Or.inr (ih ys zs a b c h0)

theorem expr_idxs_WF {w : View} (idxs : List String) (off : Int) :
    WFb (w.expr_idxs idxs off) = true := by
  rw [View.expr_idxs]
  refine sumc_WF (WFL_intro ?_)
  intro x hx
  rw [List.mem_cons] at hx
  cases hx with
  | inl h => subst h; rfl
  | inr h =>
    rw [List.mem_filterMap] at h
    obtain ⟨a, _, hfa⟩ := h
    split at hfa
    · cases hfa
      exact mulc_WF _ _ (varc_WF _ _ _)
    · cases hfa

theorem expr_idxs_BEnv (env : String → Int) {w : View} (idxs : List String)
    (henv : ∀ q ∈ idxs.zip w.shape, 0 ≤ env q.1 ∧ env q.1 ≤ q.2 - 1) (off : Int) :
    BEnv env (w.expr_idxs idxs off) := by
  intro p hp
  rw [View.expr_idxs] at hp
  have h2 := varsOf_sumc hp
  rw [varsOfL] at h2
  simp only [varsOf, List.nil_append] at h2
  rw [varsOfL_iff] at h2
  obtain ⟨y, hy, hpy⟩ := h2
  rw [List.mem_filterMap] at hy
  obtain ⟨a, ha, hfa⟩ := hy
  split at hfa
  · cases hfa
    have hv := varsOf_mulc _ _ p hpy
    rw [varc] at hv
    split at hv
    · simp only [varsOf, List.mem_singleton] at hv
      subst hv
      have := henv (a.1, a.2.1) (zip_proj12 _ _ _ _ _ _ ha)
      exact ⟨this.1, this.2⟩
    · cases hv
  · cases hfa

theorem filterTerms_eval (env : String → Int) :
    ∀ (names : List String) (shape strides : List Int),
      names.length = shape.length → strides.length = shape.length →
      (∀ q ∈ shape.zip strides, q.1 = 1 → q.2 = 0) →
      (∀ q ∈ names.zip shape, 1 ≤ q.2 ∧ 0 ≤ env q.1 ∧ env q.1 ≤ q.2 - 1) →
      evalL env ((names.zip (shape.zip strides)).filterMap fun p =>
        if p.2.1 ≠ 1 ∧ p.2.2 ≠ 0 then some (mulc (varc p.1 0 (p.2.1 - 1)) p.2.2) else none)
      = (((names.map env).zip strides).map fun p => p.1 * p.2).sum := by
  intro names
  induction names with
  | nil =>
    intro shape strides _ _ _ _
    simp [evalL]
  | cons nm nms ih =>
    intro shape strides hlen1 hlen2 hnorm henv
    cases shape with
    | nil => cases hlen1
    | cons sh shs =>
      cases strides with
      | nil => cases hlen2
      | cons st sts =>
        have hhead := henv (nm, sh) (by rw [List.zip_cons_cons]; exact List.mem_cons_self _ _)
        have hrest := ih shs sts (by simpa using hlen1) (by simpa using hlen2)
          (fun q hq => hnorm q (by rw [List.zip_cons_cons]; exact List.mem_cons_of_mem _ hq))
          (fun q hq => henv q (by rw [List.zip_cons_cons]; exact List.mem_cons_of_mem _ hq))
        by_cases hc : sh ≠ 1 ∧ st ≠ 0
        · have hsh2 : (0 : Int) < sh - 1 := by
            have := hhead.1
            rcases hc with ⟨h1, _⟩
            omega
          have hvar : evalE env (varc nm 0 (sh - 1)) = env nm := by
            rw [varc, if_pos hsh2]
            rfl
          simp only [List.zip_cons_cons, List.filterMap_cons, if_pos hc, List.map_cons,
            evalL, List.sum_cons, mulc_eval, hvar, hrest]
        · have hst0 : st = 0 := by
            rcases not_and_or.mp hc with h | h
            · exact hnorm (sh, st) (by rw [List.zip_cons_cons]; exact List.mem_cons_self _ _)
                (not_not.mp h)
            · exact not_not.mp h
          subst hst0
          simp [List.zip_cons_cons, List.filterMap_cons, hrest]

/-- Claim C1: for every well-formed ShapeTracker whose exposed entry is a
(normalized) `View`, and every in-bounds assignment of the per-dimension
index variables, `expr_idxs` succeeds and its buffer-offset expression
evaluates to exactly the naive multi-view walk: the top view's affine map
`offset + Σ idx_i * strides[i]`, fed as a linear index through each
earlier View's `expr_node` map from second-to-top down to `views[0]`,
with ZeroViews leaving the index unchanged. -/
theorem expr_idxs_matches_naive_walk (st : ShapeTracker) (w : View)
    (hne : st.views ≠ []) (htop : st.top = .view w) (hnorm : w.norm)
    (hok : StackOK st) (idxs : List String) (env : String → Int)
    (hlen : idxs.length = w.shape.length)
    (henv : ∀ q ∈ idxs.zip w.shape, 0 ≤ env q.1 ∧ env q.1 ≤ q.2 - 1) :
    ∃ pr : Expr × Expr, st.expr_idxs idxs 0 = some pr ∧
      evalE env pr.1 = naive_walk st (idxs.map env) := by
  have hwmem : VT.view w ∈ st.views := htop ▸ top_mem hne
  have hokw : w.ok := hok _ hwmem
  have hwf0 : WFb (w.expr_idxs idxs 0) = true := expr_idxs_WF idxs 0
  have hb0 : BEnv env (w.expr_idxs idxs 0) := expr_idxs_BEnv env idxs henv 0
  have hval0 : evalE env (w.expr_idxs idxs 0) =
      w.offset + (((idxs.map env).zip w.strides).map fun p => p.1 * p.2).sum := by
    rw [View.expr_idxs, sumc_eval, evalL]
    rw [filterTerms_eval env idxs w.shape w.strides hlen hokw.2
      (norm_pairs w.shape w.strides hnorm)
      (fun q hq => ⟨hokw.1 q.2 (List.of_mem_zip hq).2, henv q hq⟩)]
    simp [evalE]
  obtain ⟨pr, hpr, hprev⟩ := walkList_correct env st.views.dropLast.reverse
    (fun v hv => hok v (mem_dropLast_mem (List.mem_reverse.mp hv)))
    (w.expr_idxs idxs 0) (.num 1) hwf0 hb0
  refine ⟨pr, ?_, ?_⟩
  · rw [ShapeTracker.expr_idxs, htop]
    exact hpr
  · rw [hprev, hval0, naive_walk, htop]
    rfl

/-! ### ShapeTracker helper lemmas -/

theorem dropLast_getLastD {α : Type} : ∀ (l : List α) (d : α), l ≠ [] →
    l.dropLast ++ [l.getLastD d] = l := by
  intro l
  induction l with
  | nil => intro d h; exact absurd rfl h
  | cons v rest ih =>
    intro d _
    cases rest with
    | nil => simp [List.getLastD]
    | cons u us =>
      rw [List.getLastD_cons, List.dropLast_cons₂, List.cons_append, ih v (by simp)]

theorem dropLast_top {st : ShapeTracker} (hne : st.views ≠ []) :
    st.views.dropLast ++ [st.top] = st.views :=
  dropLast_getLastD st.views _ hne

theorem top_append (l : List VT) (x : VT) : (ShapeTracker.mk (l ++ [x])).top = x :=
  List.getLastD_concat _ _ _

theorem length_append_one {st : ShapeTracker} (hne : st.views ≠ []) (x : VT) :
    (st.views.dropLast ++ [x]).length = st.views.length := by
  have := List.length_pos.mpr hne
  simp only [List.length_append, List.length_dropLast, List.length_cons, List.length_nil]
  omega

/-! ### Claim theorems -/

/-- C2 (amended): the default linear index variable created by
`View.expr_node` has inclusive bounds `[0, prod(shape)]`, the one created
by `ZeroView.expr_node` has bounds `[0, prod(padded shape)]`, and only
the one created by `ShapeTracker.expr_node` has bounds
`[0, prod(shape) - 1]`. -/
theorem default_idx_bounds :
    (∀ v : View, 0 < iprod v.shape →
      emin v.idxDefault = 0 ∧ emax v.idxDefault = iprod v.shape) ∧
    (∀ z : ZeroView, 0 < iprod z.shape →
      emin z.idxDefault = 0 ∧ emax z.idxDefault = iprod z.shape) ∧
    (∀ (st : ShapeTracker) (name : String), 1 < iprod st.shape →
      emin (st.exprNodeIdx name) = 0 ∧ emax (st.exprNodeIdx name) = iprod st.shape - 1) := by
  refine ⟨?_, ?_, ?_⟩
  · intro v hv
    rw [View.idxDefault, varc, if_pos hv]
    exact ⟨rfl, rfl⟩
  · intro z hz
    rw [ZeroView.idxDefault, varc, if_pos hz]
    exact ⟨rfl, rfl⟩
  · intro st name hst
    rw [ShapeTracker.exprNodeIdx, varc, if_pos (by omega)]
    exact ⟨rfl, rfl⟩

/-- C2, counterexample: on the view `View((3,), (1,), 0)` the default
index of `View.expr_node` is bounded by `prod(shape) = 3`, not
`prod(shape) - 1 = 2` as the claim states. -/
theorem default_idx_bounds_cex :
    ¬ emax (View.idxDefault (View.make [3] [1] 0)) =
        iprod (View.make [3] [1] 0).shape - 1 := by
  decide

/-- C2, witness for the amended claim at concrete inputs. -/
theorem default_idx_bounds_witness :
    emax (View.idxDefault (View.make [3] [1] 0)) = 3 ∧
    emax (ZeroView.idxDefault ⟨[3], [(-1, 4)]⟩) = 5 ∧
    emax ((ShapeTracker.ofShape [3]).exprNodeIdx "idx") = 2 := by
  refine ⟨?_, ?_, ?_⟩
  · have h := default_idx_bounds.1 (View.make [3] [1] 0) (by decide)
    rw [h.2]; decide
  · have h := default_idx_bounds.2.1 ⟨[3], [(-1, 4)]⟩ (by decide)
    rw [h.2]; decide
  · have h := default_idx_bounds.2.2 (ShapeTracker.ofShape [3]) "idx" (by decide)
    rw [h.2]; decide

/-- C9: `expand` performs no rank check: a strictly shorter `new_shape`
whose entries each match (or broadcast from 1) is accepted without error
and silently replaces the top view with one of the lower rank. -/
theorem expand_no_rank_check (st : ShapeTracker) (ns : List Int)
    (hne : st.views ≠ []) (hlen : ns.length < st.shape.length)
    (hm : ∀ p ∈ st.shape.zip ns, p.1 = p.2 ∨ p.1 = 1) :
    ∃ st', st.expand ns = some st' ∧ st'.shape = ns ∧
      st'.views.length = st.views.length := by
  refine ⟨⟨st.views.dropLast ++ [.view (View.make ns
    ((st.strides.zip (st.shape.zip ns)).map fun p =>
      if p.2.1 = p.2.2 then p.1 else 0) st.offset)]⟩, ?_, ?_, ?_⟩
  · rw [ShapeTracker.expand, if_pos hm]
  · rw [ShapeTracker.shape, top_append]
    rfl
  · exact length_append_one hne _

/-- C9, witness: `new((2,3)).expand((2,))` succeeds and yields the
rank-1 shape `(2,)`. -/
theorem expand_no_rank_check_witness :
    ∃ st', (ShapeTracker.ofShape [2, 3]).expand [2] = some st' ∧
      st'.shape = [2] ∧ st'.views.length = (ShapeTracker.ofShape [2, 3]).views.length :=
  expand_no_rank_check (ShapeTracker.ofShape [2, 3]) [2]
    (by exact List.cons_ne_nil _ _) (by decide) (by decide)

/-- C6 (amended): for non-zero per-dimension multipliers, `stride`
replaces the top view with shape `ceil(old_shape[i] / |mul[i]|)`, strides
`old_strides[i] * mul[i]` further normalized to 0 on result dimensions of
size 1, and offset advanced by `(old_shape[i]-1) * old_strides[i]` on the
reversed dimensions. -/
theorem stride_spec (st : ShapeTracker) (mul : List Int)
    (hne : st.views ≠ []) (hlen : mul.length = st.shape.length)
    (hnz : ∀ x ∈ mul, x ≠ 0) :
    ∃ st', st.stride mul = some st' ∧
      st'.shape = (st.shape.zip mul).map (fun p => (p.1 + (|p.2| - 1)) / |p.2|) ∧
      st'.strides = normStrides st'.shape ((st.strides.zip mul).map fun p => p.1 * p.2) ∧
      st'.offset = st.offset + ((st.shape.zip (st.strides.zip mul)).filterMap fun p =>
        if p.2.2 < 0 then some ((p.1 - 1) * p.2.1) else none).sum ∧
      st'.views.length = st.views.length := by
  have hcond : ∀ p ∈ st.shape.zip mul, p.2 ≠ 0 :=
    fun p hp => hnz p.2 (List.of_mem_zip hp).2
  refine ⟨⟨st.views.dropLast ++ [.view (View.make
      ((st.shape.zip mul).map fun p => (p.1 + (|p.2| - 1)) / |p.2|)
      ((st.strides.zip mul).map fun p => p.1 * p.2)
      (st.offset + ((st.shape.zip (st.strides.zip mul)).filterMap fun p =>
        if p.2.2 < 0 then some ((p.1 - 1) * p.2.1) else none).sum))]⟩, ?_, ?_, ?_, ?_, ?_⟩
  · rw [ShapeTracker.stride, if_pos hcond]
  · simp only [ShapeTracker.shape, top_append]
    rfl
  · simp only [ShapeTracker.strides, ShapeTracker.shape, top_append]
    rfl
  · simp only [ShapeTracker.offset, top_append]
    rfl
  · exact length_append_one hne _

/-- C6, counterexample: `new((3,)).stride((5,))` gives a size-1 result
dimension, so the stored stride is normalized to 0 rather than the
claimed `old_strides[0] * mul[0] = 5`. -/
theorem stride_spec_cex :
    (ShapeTracker.ofShape [3]).stride [5] = some ⟨[.view ⟨[1], [0], 0⟩]⟩ ∧
    ¬ (ShapeTracker.mk [.view ⟨[1], [0], 0⟩]).strides = [1 * 5] := by
  exact ⟨rfl, by decide⟩

/-- C6, witness: `new((10,)).stride((2,))` yields shape `(5,)`, strides
`(2,)` and offset 0. -/
theorem stride_spec_witness :
    ∃ st', (ShapeTracker.ofShape [10]).stride [2] = some st' ∧
      st'.shape = [(10 + (|(2 : Int)| - 1)) / |(2 : Int)|] ∧
      st'.strides = normStrides st'.shape [1 * 2] ∧
      st'.offset = 0 + 0 ∧
      st'.views.length = 1 := by
  have h := stride_spec (ShapeTracker.ofShape [10]) [2]
    (by exact List.cons_ne_nil _ _) (by decide) (by decide)
  obtain ⟨st', h1, h2, h3, h4, h5⟩ := h
  exact ⟨st', h1, h2, by simpa using h3, by simpa using h4, by simpa using h5⟩

theorem shape_append (l : List VT) (x : VT) :
    (ShapeTracker.mk (l ++ [x])).shape = x.shape := by
  rw [ShapeTracker.shape, top_append]

theorem strides_append (l : List VT) (x : VT) :
    (ShapeTracker.mk (l ++ [x])).strides = x.strides := by
  rw [ShapeTracker.strides, top_append]

theorem offset_append (l : List VT) (x : VT) :
    (ShapeTracker.mk (l ++ [x])).offset = x.offset := by
  rw [ShapeTracker.offset, top_append]

theorem make_shape (a b : List Int) (c : Int) : (View.make a b c).shape = a := rfl

theorem make_strides (a b : List Int) (c : Int) :
    (View.make a b c).strides = normStrides a b := rfl

theorem make_offset (a b : List Int) (c : Int) : (View.make a b c).offset = c := rfl

theorem stride_unit_core : ∀ shape strides m : List Int,
    strides.length = shape.length → m.length = shape.length →
    (∀ q ∈ shape.zip strides, q.1 = 1 → q.2 = 0) →
    (∀ x ∈ m, x = 1 ∨ x = -1) →
    ((shape.zip m).map (fun p => (p.1 + (|p.2| - 1)) / |p.2|)) = shape
    ∧ normStrides shape ((strides.zip m).map (fun p => p.1 * p.2))
        = (strides.zip m).map (fun p => p.1 * p.2)
    ∧ ((((strides.zip m).map (fun p => p.1 * p.2)).zip m).map (fun p => p.1 * p.2)) = strides
    ∧ ((shape.zip (strides.zip m)).filterMap (fun p =>
          if p.2.2 < 0 then some ((p.1 - 1) * p.2.1) else none)).sum
      + ((shape.zip ((((strides.zip m).map (fun p => p.1 * p.2))).zip m)).filterMap (fun p =>
          if p.2.2 < 0 then some ((p.1 - 1) * p.2.1) else none)).sum = 0 := by
  intro shape
  induction shape with
  | nil =>
    intro strides m h1 h2 _ _
    simp only [List.length_nil, List.length_eq_zero] at h1 h2
    subst h1; subst h2
    simp [normStrides]
  | cons sh shs ih =>
    intro strides m h1 h2 hn1 hm
    cases strides with
    | nil => cases h1
    | cons st sts =>
      cases m with
      | nil => cases h2
      | cons m0 ms =>
        obtain ⟨hA, hB, hC, hD⟩ := ih sts ms (by simpa using h1) (by simpa using h2)
          (fun q hq => hn1 q (by rw [List.zip_cons_cons]; exact List.mem_cons_of_mem _ hq))
          (fun x hx => hm x (List.mem_cons_of_mem _ hx))
        have hm0 := hm m0 (List.mem_cons_self _ _)
        refine ⟨?_, ?_, ?_, ?_⟩
        · rcases hm0 with rfl | rfl <;>
            simp [List.zip_cons_cons, List.map_cons, hA]
        · simp only [List.zip_cons_cons, List.map_cons, normStrides] at hB ⊢
          by_cases hsh : sh = 1
          · have hst0 : st = 0 :=
              hn1 (sh, st) (by rw [List.zip_cons_cons]; exact List.mem_cons_self _ _) hsh
            subst hst0
            simp only [List.zip_cons_cons, List.map_cons, if_pos hsh, zero_mul]
            rw [hB]
          · simp only [List.zip_cons_cons, List.map_cons, if_neg hsh]
            rw [hB]
        · rcases hm0 with rfl | rfl <;>
            simp only [List.zip_cons_cons, List.map_cons, hC, mul_one, List.cons.injEq] <;>
            constructor <;> first | ring | rw [← hC]; try ring
        · rcases hm0 with rfl | rfl
          · simp only [List.zip_cons_cons, List.map_cons, List.filterMap_cons, mul_one]
            have h10 : ¬ ((1 : Int) < 0) := by norm_num
            simp only [if_neg h10]
            exact hD
          · simp only [List.zip_cons_cons, List.map_cons, List.filterMap_cons]
            have hneg : ((-1 : Int) < 0) := by norm_num
            simp only [if_pos hneg, List.sum_cons]
            have : (sh - 1) * st + (sh - 1) * (st * -1) = 0 := by ring
            omega

theorem vt_view_shape (v : View) : (VT.view v).shape = v.shape := rfl

theorem vt_view_strides (v : View) : (VT.view v).strides = v.strides := rfl

theorem vt_view_offset (v : View) : (VT.view v).offset = v.offset := rfl

theorem stride_eq (st : ShapeTracker) (mul : List Int)
    (hcond : ∀ p ∈ st.shape.zip mul, p.2 ≠ 0) :
    st.stride mul = some ⟨st.views.dropLast ++ [.view (View.make
      ((st.shape.zip mul).map (fun p => (p.1 + (|p.2| - 1)) / |p.2|))
      ((st.strides.zip mul).map (fun p => p.1 * p.2))
      (st.offset + ((st.shape.zip (st.strides.zip mul)).filterMap (fun p =>
        if p.2.2 < 0 then some ((p.1 - 1) * p.2.1) else none)).sum))]⟩ := by
  rw [ShapeTracker.stride, if_pos hcond]

theorem flip_flip_core (l : List VT) (w : View) (hnorm : w.norm)
    (hlen : w.strides.length = w.shape.length) (axis : List Nat) :
    ∃ st₁ : ShapeTracker, (ShapeTracker.mk (l ++ [.view w])).flip axis = some st₁ ∧
      st₁.flip axis = some (ShapeTracker.mk (l ++ [.view w])) := by
  set m := (List.range w.shape.length).map (fun i => if i ∈ axis then (-1 : Int) else 1)
    with hmdef
  have hmlen : m.length = w.shape.length := by rw [hmdef]; simp
  have hmpm : ∀ x ∈ m, x = 1 ∨ x = -1 := by
    intro x hx
    rw [hmdef, List.mem_map] at hx
    obtain ⟨i, _, hi⟩ := hx
    subst hi
    by_cases hia : i ∈ axis
    · exact Or.inr (by rw [if_pos hia])
    · exact Or.inl (by rw [if_neg hia])
  obtain ⟨hA, hB, hC, hD⟩ := stride_unit_core w.shape w.strides m hlen hmlen
    (norm_pairs w.shape w.strides hnorm) hmpm
  have hnz : ∀ x ∈ m, x ≠ 0 := by
    intro x hx
    rcases hmpm x hx with rfl | rfl <;> norm_num
  set S1 := (w.strides.zip m).map (fun p => p.1 * p.2) with hS1
  set sum1 := ((w.shape.zip (w.strides.zip m)).filterMap (fun p =>
    if p.2.2 < 0 then some ((p.1 - 1) * p.2.1) else none)).sum with hsum1
  set sum2 := ((w.shape.zip (S1.zip m)).filterMap (fun p =>
    if p.2.2 < 0 then some ((p.1 - 1) * p.2.1) else none)).sum with hsum2
  have h1 := stride_eq (ShapeTracker.mk (l ++ [.view w])) m
    (fun p hp => hnz p.2 (List.of_mem_zip hp).2)
  simp only [shape_append, strides_append, offset_append, vt_view_shape,
    vt_view_strides, vt_view_offset] at h1
  have hviews1 : (ShapeTracker.mk (l ++ [VT.view w])).views.dropLast = l := by
    show (l ++ [VT.view w]).dropLast = l
    exact List.dropLast_concat
  rw [hviews1, hA, ← hS1, ← hsum1] at h1
  refine ⟨⟨l ++ [.view (View.make w.shape S1 (w.offset + sum1))]⟩, ?_, ?_⟩
  · rw [ShapeTracker.flip]
    simp only [shape_append, vt_view_shape]
    rw [← hmdef]
    exact h1
  · have h2 := stride_eq (ShapeTracker.mk (l ++ [.view (View.make w.shape S1
        (w.offset + sum1))])) m (fun p hp => hnz p.2 (List.of_mem_zip hp).2)
    simp only [shape_append, strides_append, offset_append, vt_view_shape,
      vt_view_strides, vt_view_offset, make_shape, make_strides, make_offset] at h2
    have hviews2 : (ShapeTracker.mk (l ++ [VT.view (View.make w.shape S1
        (w.offset + sum1))])).views.dropLast = l := by
      show (l ++ [VT.view (View.make w.shape S1 (w.offset + sum1))]).dropLast = l
      exact List.dropLast_concat
    rw [hviews2, hA, hB, hC, ← hsum2] at h2
    have hoffeq : w.offset + sum1 + sum2 = w.offset := by omega
    rw [hoffeq] at h2
    have hw : View.make w.shape w.strides w.offset = w := by
      rw [View.make, ← hnorm]
    rw [hw] at h2
    rw [ShapeTracker.flip]
    simp only [shape_append, vt_view_shape, make_shape]
    rw [← hmdef]
    exact h2

/-- C7: `flip` is an involution: applying `flip(axis)` twice returns the
tracker to exactly its original state (top view's shape, strides and
offset restored, earlier views untouched). -/
theorem flip_involution (st : ShapeTracker) (w : View)
    (hne : st.views ≠ []) (htop : st.top = .view w) (hnorm : w.norm)
    (hlen : w.strides.length = w.shape.length) (axis : List Nat) :
    ∃ st₁ : ShapeTracker, st.flip axis = some st₁ ∧ st₁.flip axis = some st := by
  have hv : st = ShapeTracker.mk (st.views.dropLast ++ [.view w]) := by
    have h0 := dropLast_top hne
    rw [htop] at h0
    show st = ⟨_⟩
    rw [h0]
  obtain ⟨st₁, h1, h2⟩ := flip_flip_core st.views.dropLast w hnorm hlen axis
  refine ⟨st₁, ?_, ?_⟩
  · rw [hv]; exact h1
  · rw [hv]; exact h2

/-- C7, witness: `new((5,)).flip((0,))` yields the top view
`View((5,), (-1,), 4)` and a second `flip((0,))` restores the original
tracker (stride `(1,)`, offset 0). -/
theorem flip_involution_witness :
    (ShapeTracker.ofShape [5]).flip [0] = some ⟨[.view ⟨[5], [-1], 4⟩]⟩ ∧
    (ShapeTracker.mk [.view ⟨[5], [-1], 4⟩]).strides = [-1] ∧
    (ShapeTracker.mk [.view ⟨[5], [-1], 4⟩]).offset = 4 ∧
    ∃ st₁ : ShapeTracker, (ShapeTracker.ofShape [5]).flip [0] = some st₁ ∧
      st₁.flip [0] = some (ShapeTracker.ofShape [5]) := by
  refine ⟨rfl, rfl, rfl, ?_⟩
  exact flip_involution (ShapeTracker.ofShape [5]) (View.make [5] [1] 0)
    (by exact List.cons_ne_nil _ _) rfl (by decide) (by decide) [0]

theorem zvLoop_inbounds (idx : Expr) :
    ∀ (l : List (Int × (Int × (Int × Int)))) (acc : Int), 0 < acc →
      (∀ t ∈ l, 0 < t.2.1 ∧ 0 ≤ t.2.2.1 ∧ t.1 ≤ t.1 ∧ t.2.2.2 ≤ t.1) →
      zvLoop idx l acc = some [] := by
  intro l
  induction l with
  | nil => intro acc _ _; rfl
  | cons t rest ih =>
    obtain ⟨s, ns, x, y⟩ := t
    intro acc hacc hmem
    obtain ⟨hns0, hx0, _, hy0⟩ := hmem (s, ns, x, y) (List.mem_cons_self _ _)
    have hns : (0 : Int) < ns := hns0
    have hx : (0 : Int) ≤ x := hx0
    have hy : y ≤ s := hy0
    have hrest := ih (acc * ns) (mul_pos hacc hns)
      (fun r hr => hmem r (List.mem_cons_of_mem _ hr))
    cases hq : divc idx acc with
    | none => exact absurd (divc_none hq) (by omega)
    | some q =>
      cases hm : modc q ns with
      | none => exact absurd (modc_none hm) (by omega)
      | some m =>
        simp only [zvLoop, hq, hm, hrest]
        rw [if_neg (by omega : ¬ x < 0), if_neg (by omega : ¬ s < y)]
        rfl

theorem zip_zv_mem : ∀ (A : List Int) (B : List (Int × Int)) (t : Int × Int × Int × Int),
    t ∈ A.zip ((B.map (fun p => p.2 - p.1)).zip B) →
    (t.2.2, t.1) ∈ B.zip A ∧ t.2.1 = t.2.2.2 - t.2.2.1 := by
  intro A
  induction A with
  | nil => intro B t h; cases h
  | cons a as ih =>
    intro B t h
    cases B with
    | nil => cases h
    | cons b bs =>
      simp only [List.map_cons, List.zip_cons_cons, List.mem_cons] at h
      cases h with
      | inl h0 =>
        subst h0
        exact ⟨List.mem_cons_self _ _, rfl⟩
      | inr h0 =>
        obtain ⟨h1, h2⟩ := ih bs t h0
        exact ⟨List.mem_cons_of_mem _ h1, h2⟩

/-- C3 (amended): for in-range windows that are non-empty
(`0 ≤ lo < hi ≤ shape[i]`), `shrink` replaces the top view with shape
`(hi-lo, ...)`, keeps the strides except that they are normalized to 0 on
result dimensions of size 1, adds `Σ strides[i] * lo_i` to the offset and
appends no ZeroView: the number of views and `needs_valid()` are
unchanged. -/
theorem shrink_proper (st : ShapeTracker) (w : View) (arg : List (Int × Int))
    (hne : st.views ≠ []) (htop : st.top = .view w)
    (hlen : arg.length = st.shape.length)
    (hbounds : ∀ q ∈ arg.zip st.shape, 0 ≤ q.1.1 ∧ q.1.1 < q.1.2 ∧ q.1.2 ≤ q.2) :
    ∃ st', st.shrink arg = some st' ∧
      st'.views = st.views.dropLast ++ [.view (View.make (arg.map (fun p => p.2 - p.1))
        st.strides (st.offset + ((arg.zip st.strides).map (fun p => p.2 * p.1.1)).sum))] ∧
      st'.views.length = st.views.length ∧
      st'.needs_valid = st.needs_valid := by
  have hzv : (ZeroView.mk st.shape arg).expr_node_d = some (.num 1) := by
    rw [ZeroView.expr_node_d, ZeroView.expr_node,
      zvLoop_inbounds _ _ 1 one_pos ?_]
    · rfl
    · intro t ht
      rw [List.mem_reverse] at ht
      obtain ⟨s, ns, x, y⟩ := t
      obtain ⟨hmem, hns0⟩ := zip_zv_mem st.shape arg (s, ns, x, y) ht
      obtain ⟨h1, h2, h3⟩ := hbounds ((x, y), s) hmem
      have hns : ns = y - x := hns0
      have h1' : (0 : Int) ≤ x := h1
      have h2' : x < y := h2
      have h3' : y ≤ s := h3
      show 0 < ns ∧ 0 ≤ x ∧ s ≤ s ∧ y ≤ s
      refine ⟨by omega, by omega, le_refl _, by omega⟩
  refine ⟨_, ?_, rfl, ?_, ?_⟩
  · rw [ShapeTracker.shrink, if_pos hlen]
    simp only [hzv]
    rw [if_neg (by decide : ¬ emin (Expr.num 1) = 0)]
  · exact length_append_one hne _
  · show (st.views.dropLast ++ [VT.view _]).any _ = st.views.any _
    conv_rhs => rw [← dropLast_top hne, htop]
    simp [List.any_append]

/-- C3, counterexample: `new((3,)).shrink(((1,2),))` produces a size-1
dimension, so the stored stride is normalized to 0, not left unchanged at
1 as the claim states. -/
theorem shrink_proper_cex :
    (ShapeTracker.ofShape [3]).shrink [(1, 2)] = some ⟨[.view ⟨[1], [0], 1⟩]⟩ ∧
    ¬ (ShapeTracker.mk [.view ⟨[1], [0], 1⟩]).strides = [1] := by
  exact ⟨rfl, by decide⟩

/-- C3, witness: `new((5,)).shrink(((1,4),))` gives shape `(3,)`, strides
`(1,)`, offset 1, one view and no validity predicate. -/
theorem shrink_proper_witness :
    ∃ st', (ShapeTracker.ofShape [5]).shrink [(1, 4)] = some st' ∧
      st'.views = [] ++ [.view (View.make [4 - 1] [1] (0 + 1 * 1))] ∧
      st'.views.length = 1 ∧
      st'.needs_valid = false := by
  have h := shrink_proper (ShapeTracker.ofShape [5]) (View.make [5] [1] 0) [(1, 4)]
    (by exact List.cons_ne_nil _ _) rfl (by decide) (by decide)
  obtain ⟨st', h1, h2, h3, h4⟩ := h
  exact ⟨st', h1, by simpa using h2, by simpa using h3, by simpa using h4⟩

/-- C4 (amended): `shrink` performs no bounds-range check: any argument of
the correct rank whose windows are non-empty completes normally (the
out-of-range case is the padded generalization); only a rank mismatch
fails the assertion. -/
theorem shrink_no_bounds_check (st : ShapeTracker) (arg : List (Int × Int)) :
    (arg.length = st.shape.length → (∀ p ∈ arg, p.1 < p.2) →
      ∃ st', st.shrink arg = some st') ∧
    (arg.length ≠ st.shape.length → st.shrink arg = none) := by
  constructor
  · intro hlen hwin
    obtain ⟨e, he⟩ := zv_expr_node_some (z := ⟨st.shape, arg⟩) hwin
      (ZeroView.mk st.shape arg).idxDefault none
    have hd : (ZeroView.mk st.shape arg).expr_node_d = some e := he
    rw [ShapeTracker.shrink, if_pos hlen]
    simp only [hd]
    split <;> exact ⟨_, rfl⟩
  · intro hlen
    rw [ShapeTracker.shrink, if_neg hlen]

/-- C4, counterexample: `new((3,)).shrink(((-1,4),))` has out-of-range
bounds but completes normally (appending a ZeroView and an identity
view), rather than failing an assertion. -/
theorem shrink_no_bounds_check_cex :
    (ShapeTracker.ofShape [3]).shrink [(-1, 4)] =
      some ⟨[.view ⟨[5], [1], -1⟩, .zero ⟨[3], [(-1, 4)]⟩, .view ⟨[5], [1], 0⟩]⟩ ∧
    ¬ (ShapeTracker.ofShape [3]).shrink [(-1, 4)] = none := by
  exact ⟨rfl, by intro h; cases h.symm.trans (rfl :
    (ShapeTracker.ofShape [3]).shrink [(-1, 4)] =
      some ⟨[.view ⟨[5], [1], -1⟩, .zero ⟨[3], [(-1, 4)]⟩, .view ⟨[5], [1], 0⟩]⟩)⟩

/-- C4, witness: the amended claim at concrete inputs — an out-of-range
call that completes and a rank-mismatched call that fails. -/
theorem shrink_no_bounds_check_witness :
    (∃ st', (ShapeTracker.ofShape [3]).shrink [(-1, 4)] = some st') ∧
    (ShapeTracker.ofShape [3]).shrink [] = none := by
  constructor
  · exact (shrink_no_bounds_check (ShapeTracker.ofShape [3]) [(-1, 4)]).1
      (by decide) (by decide)
  · exact (shrink_no_bounds_check (ShapeTracker.ofShape [3]) []).2 (by decide)

/-- C5: for non-negative per-dimension pad amounts whose padding region is
reachable (the ZeroView validity predicate has `min == 0`), `pad(arg)`
equals the generalized shrink with bounds `(-before_i, shape[i]+after_i)`:
the top view is replaced, a ZeroView over the old shape and a fresh
identity view of the new shape are appended, the logical shape becomes
`(before_i + shape[i] + after_i, ...)` and `needs_valid()` becomes
true. -/
theorem pad_generalized_shrink (st : ShapeTracker) (arg : List (Int × Int)) (e : Expr)
    (hne : st.views ≠ []) (hlen : arg.length = st.shape.length)
    (hnn : ∀ p ∈ arg, 0 ≤ p.1 ∧ 0 ≤ p.2)
    (hreach : (ZeroView.mk st.shape
      ((st.shape.zip arg).map fun p => (-p.2.1, p.1 + p.2.2))).expr_node_d = some e)
    (hmin : emin e = 0) :
    st.pad arg = st.shrink ((st.shape.zip arg).map fun p => (-p.2.1, p.1 + p.2.2)) ∧
    ∃ st', st.pad arg = some st' ∧
      st'.views = st.views.dropLast ++
        [.view (View.make
            (((st.shape.zip arg).map fun p => (-p.2.1, p.1 + p.2.2)).map fun p => p.2 - p.1)
            st.strides
            (st.offset + (((((st.shape.zip arg).map fun p => (-p.2.1, p.1 + p.2.2)).zip
              st.strides)).map fun p => p.2 * p.1.1).sum)),
         .zero ⟨st.shape, (st.shape.zip arg).map fun p => (-p.2.1, p.1 + p.2.2)⟩,
         .view (view_from_shape
            (((st.shape.zip arg).map fun p => (-p.2.1, p.1 + p.2.2)).map fun p => p.2 - p.1))] ∧
      st'.shape = (st.shape.zip arg).map (fun p => p.2.1 + p.1 + p.2.2) ∧
      st'.needs_valid = true := by
  have hpad : st.pad arg =
      st.shrink ((st.shape.zip arg).map fun p => (-p.2.1, p.1 + p.2.2)) := by
    rw [ShapeTracker.pad, if_pos ⟨hlen, hnn⟩]
  refine ⟨hpad, ?_⟩
  have hglen : ((st.shape.zip arg).map fun p =>
      ((-p.2.1 : Int), p.1 + p.2.2)).length = st.shape.length := by
    rw [List.length_map, List.length_zip, hlen, min_self]
  rw [hpad, ShapeTracker.shrink, if_pos hglen]
  simp only [hreach]
  rw [if_pos hmin]
  refine ⟨_, rfl, rfl, ?_, ?_⟩
  · show (ShapeTracker.mk _).shape = _
    rw [show ∀ (l : List VT) (a b c : VT), l ++ [a, b, c] = (l ++ [a, b]) ++ [c] from
      fun l a b c => by simp]
    rw [shape_append, vt_view_shape, view_from_shape, make_shape, List.map_map]
    apply List.map_congr_left
    intro p _
    obtain ⟨s, b, c⟩ := p
    show (s + c) - (-b) = b + s + c
    ring
  · show (ShapeTracker.mk _).needs_valid = true
    simp [ShapeTracker.needs_valid, List.any_append]

/-- C5, witness: `new((3,)).pad(((1,1),))` has shape `(5,)` and
`needs_valid() == true`. -/
theorem pad_generalized_shrink_witness :
    ∃ st', (ShapeTracker.ofShape [3]).pad [(1, 1)] = some st' ∧
      st'.shape = [5] ∧ st'.needs_valid = true := by
  obtain ⟨-, st', h1, -, h3, h4⟩ :=
    pad_generalized_shrink (ShapeTracker.ofShape [3]) [(1, 1)]
      (.ands [.ge (.sum [.mod (.var "idx" 0 5) 5, .num (-1)]) 0,
              .lt (.sum [.mod (.var "idx" 0 5) 5, .num (-1)]) 3])
      (by exact List.cons_ne_nil _ _) rfl (by decide) (by rfl) (by rfl)
  exact ⟨st', h1, h3.trans (by decide), h4⟩

theorem simplifyGoF_eq : ∀ (f : Nat) (vs : List VT), vs.length ≤ f →
    simplifyGoF f vs = simplifyGo vs := by
  intro f
  induction f with
  | zero =>
    intro vs h
    have hnil : vs = [] := List.eq_nil_of_length_eq_zero (Nat.le_zero.mp h)
    subst hnil
    rw [simplifyGo]
    rfl
  | succ f ih =>
    intro vs h
    rw [simplifyGoF, simplifyGo]
    split
    · rename_i h2
      split
      · split
        · split
          · rfl
          · rfl
          · split
            · apply ih
              simp only [List.length_append, List.length_dropLast,
                List.length_cons, List.length_nil]
              omega
            · rfl
        · rfl
      · rfl
    · rfl

theorem simplifyGo_length (vs ws : List VT) (h : simplifyGo vs = some ws) :
    ws.length ≤ vs.length := by
  rw [simplifyGo] at h
  split at h
  · rename_i h2
    split at h
    · split at h
      · split at h
        · cases h
        · cases h
          exact le_refl _
        · split at h
          · have hrec := simplifyGo_length _ _ h
            simp only [List.length_append, List.length_dropLast,
              List.length_cons, List.length_nil] at hrec
            omega
          · cases h
            exact le_refl _
      · cases h
        exact le_refl _
    · cases h
      exact le_refl _
  · cases h
    exact le_refl _
termination_by vs.length
decreasing_by
  simp only [List.length_append, List.length_dropLast, List.length_cons,
    List.length_nil]
  omega

/-- C8 (amended): `simplify()` never increases the number of views; it is
NOT semantics-preserving (see the counterexample), so only the
view-count half of the claim holds. -/
theorem simplify_view_count (st st' : ShapeTracker) (h : st.simplify = some st') :
    st'.views.length ≤ st.views.length := by
  rw [ShapeTracker.simplify] at h
  split at h
  · cases h
  · rename_i vs hvs
    cases h
    exact simplifyGo_length _ _ hvs

/-- C8, counterexample: the stack `[View((4,),(1,),0), View((2,2),(2,2),0)]`
is collapsed by `simplify()` into the single view `View((2,2),(2,2),0)`,
dropping the `% 4` wrap of the inner view: at the in-bounds assignment
`idx0 = idx1 = 1` the offset expression evaluates to 0 before and to 4
after, so `simplify()` is not semantics-preserving. -/
theorem simplify_view_count_cex :
    (ShapeTracker.mk [.view (View.make [4] [1] 0),
        .view (View.make [2, 2] [2, 2] 0)]).simplify
      = some (ShapeTracker.mk [.view (View.make [2, 2] [2, 2] 0)]) ∧
    (ShapeTracker.mk [.view (View.make [4] [1] 0),
        .view (View.make [2, 2] [2, 2] 0)]).expr_idxs_d
      = some (.mod (.sum [.mul (.var "idx0" 0 1) 2, .mul (.var "idx1" 0 1) 2]) 4, .num 1) ∧
    (ShapeTracker.mk [.view (View.make [2, 2] [2, 2] 0)]).expr_idxs_d
      = some (.sum [.mul (.var "idx0" 0 1) 2, .mul (.var "idx1" 0 1) 2], .num 1) ∧
    ((0 : Int) ≤ 1 ∧ (1 : Int) ≤ 1) ∧
    evalE (fun _ => 1) (.mod (.sum [.mul (.var "idx0" 0 1) 2, .mul (.var "idx1" 0 1) 2]) 4) = 0 ∧
    evalE (fun _ => 1) (.sum [.mul (.var "idx0" 0 1) 2, .mul (.var "idx1" 0 1) 2]) = 4 := by
  refine ⟨?_, rfl, rfl, by decide, rfl, rfl⟩
  have hgo : simplifyGo [.view (View.make [4] [1] 0), .view (View.make [2, 2] [2, 2] 0)]
      = some [.view (View.make [2, 2] [2, 2] 0)] :=
    (simplifyGoF_eq 2 _ (by decide)).symm.trans rfl
  show (match simplifyGo [.view (View.make [4] [1] 0), .view (View.make [2, 2] [2, 2] 0)] with
    | none => none
    | some vs => some (ShapeTracker.mk vs)) = _
  rw [hgo]

/-- C8, witness: a single-view tracker, on which `simplify()` succeeds
without growing the stack. -/
theorem simplify_view_count_witness :
    ∃ st', (ShapeTracker.ofShape [4]).simplify = some st' ∧
      st'.views.length ≤ (ShapeTracker.ofShape [4]).views.length := by
  have hgo : simplifyGo (ShapeTracker.ofShape [4]).views
      = some (ShapeTracker.ofShape [4]).views :=
    (simplifyGoF_eq 1 _ (by decide)).symm.trans rfl
  have hs : (ShapeTracker.ofShape [4]).simplify
      = some (ShapeTracker.mk (ShapeTracker.ofShape [4]).views) := by
    show (match simplifyGo (ShapeTracker.ofShape [4]).views with
      | none => none
      | some vs => some (ShapeTracker.mk vs)) = _
    rw [hgo]
  exact ⟨_, hs, simplify_view_count _ _ hs⟩

/-- C10: `simplify()` terminates on every ShapeTracker, with recursion
depth bounded by the initial number of views: running the recursion with
any fuel budget of at least `len(views)` computes exactly `simplify()`. -/
theorem simplify_depth_bound (st : ShapeTracker) (f : Nat)
    (h : st.views.length ≤ f) : st.simplifyFuel f = st.simplify := by
  rw [ShapeTracker.simplifyFuel, ShapeTracker.simplify, simplifyGoF_eq f st.views h]

/-- C10, witness: on `new((3,))` a fuel budget of 1 (= the number of
views) already computes `simplify()`. -/
theorem simplify_depth_bound_witness :
    (ShapeTracker.ofShape [3]).views.length ≤ 1 ∧
    (ShapeTracker.ofShape [3]).simplifyFuel 1 = (ShapeTracker.ofShape [3]).simplify :=
  ⟨by decide, simplify_depth_bound (ShapeTracker.ofShape [3]) 1 (by decide)⟩

/-- C1, witness: the non-collapsible reshape stack
`[View((4,4),(1,4),0), View((16,),(1,),0)]` at `idx0 = 9`: both the
expression produced by `expr_idxs` and the naive walk give buffer
offset 6. -/
theorem expr_idxs_matches_naive_walk_witness :
    (∃ pr : Expr × Expr,
      (ShapeTracker.mk [.view (View.make [4, 4] [1, 4] 0),
        .view (View.make [16] [1] 0)]).expr_idxs ["idx0"] 0 = some pr ∧
      evalE (fun n => if n = "idx0" then 9 else 0) pr.1 =
        naive_walk (ShapeTracker.mk [.view (View.make [4, 4] [1, 4] 0),
          .view (View.make [16] [1] 0)])
          (["idx0"].map (fun n => if n = "idx0" then 9 else 0))) ∧
    naive_walk (ShapeTracker.mk [.view (View.make [4, 4] [1, 4] 0),
      .view (View.make [16] [1] 0)]) [9] = 6 := by
  refine ⟨expr_idxs_matches_naive_walk
    (ShapeTracker.mk [.view (View.make [4, 4] [1, 4] 0),
      .view (View.make [16] [1] 0)]) (View.make [16] [1] 0)
    (by exact List.cons_ne_nil _ _) rfl (by decide) (by decide)
    ["idx0"] (fun n => if n = "idx0" then 9 else 0) rfl (by decide), by decide⟩
